import Mathlib

/-! Shallow embedding of the typescript-language-server fork (packages/server/src):
`document.ts`, `tsp-client.ts`, `completion.ts`, `lsp-server.ts` and the
position/range utilities, together with the parts of the external
`vscode-languageserver` TextDocument that `document.ts` delegates to.

Modelling conventions:
* JS strings are `List Char` (one entry per UTF-16 code unit; the inputs we
  evaluate contain no surrogate pairs).
* Text coordinates are `Nat` (LSP `uinteger`); 1-based tsserver wire positions
  are `Nat` fields of `TsLocation`.
* External collaborators that are not part of this repository (`JSON.parse`,
  `uriToPath`) appear as explicit function parameters of the embedded code.
* Mutation of a JS object becomes construction of an updated value; the
  side effects observable on the wire (tsserver notifications, published
  diagnostics, scheduled work) are collected in explicit effect lists. -/

/-- Converts a Lean string literal into the `List Char` model of a JS string. -/
def str (s : String) : List Char := s.data

/-- Characters matched by the JavaScript regex class \s (JS whitespace). -/
def jsIsWs (c : Char) : Bool :=
  decide (c = ' ') || decide (c = '\t') || decide (c = '\n') || decide (c = '\r') ||
  decide (c = Char.ofNat 11) || decide (c = Char.ofNat 12) ||
  decide (c = Char.ofNat 0xa0) || decide (c = Char.ofNat 0x1680) ||
  (decide (Char.ofNat 0x2000 ≤ c) && decide (c ≤ Char.ofNat 0x200a)) ||
  decide (c = Char.ofNat 0x2028) || decide (c = Char.ofNat 0x2029) ||
  decide (c = Char.ofNat 0x202f) || decide (c = Char.ofNat 0x205f) ||
  decide (c = Char.ofNat 0x3000) || decide (c = Char.ofNat 0xfeff)

/-- JS `String.prototype.trim`: removes whitespace on both ends. -/
def jsTrim (s : List Char) : List Char :=
  ((s.dropWhile jsIsWs).reverse.dropWhile jsIsWs).reverse

/-- JS `s.substring(a, b)`: swaps the endpoints when `a > b`, then slices. -/
def jsSubstring (s : List Char) (a b : Nat) : List Char :=
  let lo := min a b
  let hi := max a b
  (s.drop lo).take (hi - lo)

/-- An LSP position: 0-based line, 0-based UTF-16 character offset. -/
structure Position where
  line : Nat
  character : Nat
deriving DecidableEq, Repr

/-- An LSP range (`endPos` stands for the source field `end`, a Lean keyword). -/
structure Range where
  start : Position
  endPos : Position
deriving DecidableEq, Repr

/-- Embeds `PositionUtil.isBefore` from `src/util/position.ts`. -/
def PositionUtil.isBefore (pos other : Position) : Bool :=
  if pos.line < other.line then true
  else if other.line < pos.line then false
  else pos.character < other.character

/-- Embeds `PositionUtil.isBeforeOrEqual` from `src/util/position.ts`. -/
def PositionUtil.isBeforeOrEqual (pos other : Position) : Bool :=
  if pos.line < other.line then true
  else if other.line < pos.line then false
  else pos.character ≤ other.character

/-- Embeds `PositionUtil.isAfter` from `src/util/position.ts`. -/
def PositionUtil.isAfter (pos other : Position) : Bool :=
  !PositionUtil.isBeforeOrEqual pos other

/-- Embeds the two-argument use of the variadic `PositionUtil.Min`. -/
def PositionUtil.minP (a b : Position) : Position :=
  if PositionUtil.isBefore b a then b else a

/-- Embeds the two-argument use of the variadic `PositionUtil.Max`. -/
def PositionUtil.maxP (a b : Position) : Position :=
  if PositionUtil.isAfter b a then b else a

/-- Embeds the position case of `RangeUtil.contains` from `src/util/range.ts`. -/
def RangeUtil.containsPos (r : Range) (p : Position) : Bool :=
  if PositionUtil.isBefore p r.start then false
  else if PositionUtil.isBefore r.endPos p then false
  else true

/-- Embeds the range case of `RangeUtil.contains` from `src/util/range.ts`. -/
def RangeUtil.containsRange (r other : Range) : Bool :=
  RangeUtil.containsPos r other.start && RangeUtil.containsPos r other.endPos

/-- Embeds `RangeUtil.union` from `src/util/range.ts`. -/
def RangeUtil.union (r other : Range) : Range :=
  if RangeUtil.containsRange r other then r
  else if RangeUtil.containsRange other r then other
  else { start := PositionUtil.minP other.start r.start,
         endPos := PositionUtil.maxP other.endPos r.endPos }

/-! The text document model. `LspDocument` in `document.ts` wraps the external
`vscode-languageserver` `TextDocument` (a full text plus line-offset table);
we collapse the wrapper and the wrapped full-text document into one structure
and embed the library's `computeLineOffsets` / `positionAt` / `offsetAt` /
`getText` together with the wrapper methods of `document.ts`. -/

structure TextDoc where
  uri : String
  languageId : String
  version : Int
  text : List Char
deriving DecidableEq, Repr

/-- Embeds the library's `computeLineOffsets` scan (without the leading 0):
line starts are recorded after each `\r\n`, lone `\r`, or `\n`. -/
def lineOffsetsAux : List Char → Nat → List Nat
  | [], _ => []
  | '\r' :: '\n' :: rest, i => (i + 2) :: lineOffsetsAux rest (i + 2)
  | '\r' :: rest, i => (i + 1) :: lineOffsetsAux rest (i + 1)
  | '\n' :: rest, i => (i + 1) :: lineOffsetsAux rest (i + 1)
  | _ :: rest, i => lineOffsetsAux rest (i + 1)

/-- Line-start offsets of a text, beginning with offset 0 (library
`computeLineOffsets` with `isAtLineStart = true`). -/
def computeLineOffsets (text : List Char) : List Nat :=
  0 :: lineOffsetsAux text 0

/-- Embeds the library `TextDocument.lineCount`. -/
def TextDoc.lineCount (d : TextDoc) : Nat :=
  (computeLineOffsets d.text).length

/-- Embeds the library `TextDocument.positionAt`: clamp the offset into the
text, then locate the greatest line start not beyond it (the library uses a
binary search over the sorted offset table; the `takeWhile` below computes the
same index). -/
def TextDoc.positionAt (d : TextDoc) (offset : Nat) : Position :=
  let o := min offset d.text.length
  let offs := computeLineOffsets d.text
  let line := (offs.takeWhile (fun x => decide (x ≤ o))).length - 1
  { line := line, character := o - offs.getD line 0 }

/-- Embeds the library `TextDocument.offsetAt` for non-negative positions:
a line beyond the table maps to the text length, and the character is clamped
between the line start and the next line start. -/
def TextDoc.offsetAt (d : TextDoc) (p : Position) : Nat :=
  let offs := computeLineOffsets d.text
  if offs.length ≤ p.line then d.text.length
  else
    let lineOffset := offs.getD p.line 0
    let nextLineOffset := if p.line + 1 < offs.length then offs.getD (p.line + 1) 0 else d.text.length
    max (min (lineOffset + p.character) nextLineOffset) lineOffset

/-- Embeds the library `TextDocument.getText(range)`:
`substring(offsetAt(start), offsetAt(end))`. -/
def TextDoc.getText (d : TextDoc) (r : Range) : List Char :=
  jsSubstring d.text (d.offsetAt r.start) (d.offsetAt r.endPos)

/-- Embeds `LspDocument.lineAt`: `getText(Range.create(line, -1, line,
Number.MAX_VALUE))`. The library clamps character -1 up to the line start and
MAX_VALUE down to the next line start, so the result is the slice from the
line's start offset to the next line's start offset (line break included);
a line beyond the table yields the empty string. -/
def TextDoc.lineAt (d : TextDoc) (line : Nat) : List Char :=
  let offs := computeLineOffsets d.text
  let a := if line < offs.length then offs.getD line 0 else d.text.length
  let b := if line + 1 < offs.length then offs.getD (line + 1) 0 else d.text.length
  (d.text.drop a).take (b - a)

/-- Embeds `LspDocument.getLine`, which just calls `lineAt`. -/
def TextDoc.getLine (d : TextDoc) (line : Nat) : List Char :=
  d.lineAt line

/-- Embeds `LspDocument.getLineStart`. -/
def TextDoc.getLineStart (_d : TextDoc) (line : Nat) : Position :=
  { line := line, character := 0 }

/-- Embeds `LspDocument.getLineOffset`: `offsetAt(getLineStart(line))`. -/
def TextDoc.getLineOffset (d : TextDoc) (line : Nat) : Nat :=
  d.offsetAt (d.getLineStart line)

/-- Embeds `LspDocument.getLineEnd`: `positionAt(getLineOffset(line+1) - 1)`. -/
def TextDoc.getLineEnd (d : TextDoc) (line : Nat) : Position :=
  d.positionAt (d.getLineOffset (line + 1) - 1)

/-- Embeds `LspDocument.getLineRange`. -/
def TextDoc.getLineRange (d : TextDoc) (line : Nat) : Range :=
  { start := d.getLineStart line, endPos := d.getLineEnd line }

/-- Backward scan of `getWordRangeAtPosition`:
while `startChar > 0 && !/\s/.test(lineText.charAt(startChar - 1))` decrement. -/
def scanWordBack (lineText : List Char) : Nat → Nat
  | 0 => 0
  | k + 1 => if jsIsWs (lineText.getD k 'x') then k + 1 else scanWordBack lineText k

/-- Forward scan of `getWordRangeAtPosition`:
while `endChar < lineText.length - 1 && !/\s/.test(lineText.charAt(endChar))`
increment. -/
def scanWordFwd (lineText : List Char) (e : Nat) : Nat :=
  if e + 1 < lineText.length then
    if jsIsWs (lineText.getD e 'x') then e else scanWordFwd lineText (e + 1)
  else e
termination_by lineText.length - e

/-- Embeds `LspDocument.getWordRangeAtPosition`. On an empty line the JS code
computes `character = min(-1, max(0, c)) = -1`, both scans stay at -1 and the
method returns undefined; the `if` below covers that path. -/
def TextDoc.getWordRangeAtPosition (d : TextDoc) (pos : Position) : Option Range :=
  let lines := d.lineCount
  let line := min (lines - 1) pos.line
  let lineText := d.getLine line
  if lineText.length = 0 then none
  else
    let character := min (lineText.length - 1) pos.character
    let startChar := scanWordBack lineText character
    let endChar := scanWordFwd lineText character
    if startChar = endChar then none
    else some { start := { line := line, character := startChar },
                endPos := { line := line, character := endChar } }

/-- A `TextDocumentContentChangeEvent`: full-text replacement when `range` is
absent, ranged replacement when present. -/
structure ContentChange where
  text : List Char
  range : Option Range := none
deriving DecidableEq, Repr

/-- Embeds `LspDocument.applyEdit`: with a range, splice
`content.substr(0, start) + change.text + content.substr(end)` (offsets taken
on the old text); without one, replace the whole text. The fresh document is
created with the given version and the old uri / language id. -/
def TextDoc.applyEdit (d : TextDoc) (version : Int) (change : ContentChange) : TextDoc :=
  let content := d.text
  let newContent :=
    match change.range with
    | some r =>
      let s := d.offsetAt r.start
      let e := d.offsetAt r.endPos
      content.take s ++ change.text ++ content.drop e
    | none => change.text
  { uri := d.uri, languageId := d.languageId, version := version, text := newContent }

/-! The open-document set `LspDocuments` from `document.ts`: a map
path → document plus the most-recently-accessed-first list `_files`.
The JS `Map` becomes an association list with handwritten lookup / update /
delete so that no key is ever duplicated in our reasoning. -/

/-- Association-list lookup, modelling `Map.get`. -/
def lookupDoc : List (String × TextDoc) → String → Option TextDoc
  | [], _ => none
  | p :: rest, k => if p.1 = k then some p.2 else lookupDoc rest k

/-- Association-list value update at an existing key, modelling the in-place
mutation of the document object held by the map. -/
def updateDoc : List (String × TextDoc) → String → TextDoc → List (String × TextDoc)
  | [], _, _ => []
  | p :: rest, k, d => if p.1 = k then (p.1, d) :: updateDoc rest k d else p :: updateDoc rest k d

/-- Association-list removal, modelling `Map.delete`. -/
def deleteDoc : List (String × TextDoc) → String → List (String × TextDoc)
  | [], _ => []
  | p :: rest, k => if p.1 = k then rest else p :: deleteDoc rest k

/-- Removal from the `_files` list, modelling `splice(indexOf(file), 1)` for a
present file. -/
def eraseFile : List String → String → List String
  | [], _ => []
  | f :: rest, k => if f = k then rest else f :: eraseFile rest k

/-- The state of `LspDocuments`: `files` is `_files` (sorted by last access),
`docs` the path → document map. -/
structure ServerDocs where
  files : List String
  docs : List (String × TextDoc)
deriving DecidableEq, Repr

/-- The `lsp.TextDocumentItem` carried by `didOpen`. -/
structure TextDocumentItem where
  uri : String
  languageId : String
  version : Int
  text : List Char
deriving DecidableEq, Repr

/-- Builds the `LspDocument` stored on open (constructor of `LspDocument`). -/
def mkDoc (item : TextDocumentItem) : TextDoc :=
  { uri := item.uri, languageId := item.languageId, version := item.version, text := item.text }

/-- Embeds `LspDocuments.get`: on a hit, move the file to the front of the
access list unless it is already there. -/
def getDocs (sd : ServerDocs) (file : String) : Option TextDoc × ServerDocs :=
  match lookupDoc sd.docs file with
  | none => (none, sd)
  | some document =>
    if sd.files.head? = some file then (some document, sd)
    else (some document, { sd with files := file :: eraseFile sd.files file })

/-- Embeds `LspDocuments.open`: returns false and changes nothing when the
file is already present, else inserts the document and unshifts the file. -/
def openDocs (sd : ServerDocs) (file : String) (item : TextDocumentItem) : Bool × ServerDocs :=
  if (lookupDoc sd.docs file).isSome then (false, sd)
  else (true, { files := file :: sd.files, docs := (file, mkDoc item) :: sd.docs })

/-- Embeds `LspDocuments.close`: removes the document and its access-list
entry, returning the removed document when present. -/
def closeDocs (sd : ServerDocs) (file : String) : Option TextDoc × ServerDocs :=
  match lookupDoc sd.docs file with
  | none => (none, sd)
  | some d => (some d, { files := eraseFile sd.files file, docs := deleteDoc sd.docs file })

/-! The tsserver client transport from `tsp-client.ts`. Pending requests live
in `this.deferreds`, an object keyed by sequence number; settling a deferred
resolves (success) or rejects (failure) the promise returned by `request`.
We record the pending keys and, in order, the settlements performed, so that
"the future settles" is observable in the state. -/

/-- A parsed inbound tsserver message, discriminated exactly as
`processMessage` does via `isResponse` / `isEvent` / `isRequestCompletedEvent`:
a `type: "response"` message carries `request_seq` and `success`; a
`type: "event"` message is either the `requestCompleted` event (with
`body.request_seq`) or some other event (forwarded to `onEvent`). -/
inductive TsMessage where
  | response (request_seq : Nat) (success : Bool)
  | requestCompleted (request_seq : Nat)
  | otherEvent (name : String)
deriving DecidableEq, Repr

/-- The observable state of `TspClient`'s pending-request table:
`deferreds` holds the keys of unsettled deferreds, `settled` logs each
settlement as (sequence, resolved-with-success?). -/
structure ClientState where
  deferreds : List Nat
  settled : List (Nat × Bool)
deriving DecidableEq, Repr

/-- Embeds `TspClient.resolveResponse`: when a deferred is pending for
`request_seq`, resolve or reject it by `success` and delete the entry;
otherwise nothing happens. -/
def resolveResponse (st : ClientState) (request_seq : Nat) (success : Bool) : ClientState :=
  if request_seq ∈ st.deferreds then
    { deferreds := st.deferreds.erase request_seq,
      settled := st.settled ++ [(request_seq, success)] }
  else st

/-- Embeds the message dispatch of `TspClient.processMessage` after a
successful parse: responses and `requestCompleted` events settle the matching
deferred; other events are forwarded to `onEvent` and leave the table alone. -/
def processMsg (st : ClientState) (m : TsMessage) : ClientState :=
  match m with
  | .response rs s => resolveResponse st rs s
  | .requestCompleted rs => resolveResponse st rs true
  | .otherEvent _ => st

/-- Embeds `TspClient.processMessage` on a raw stdout line. The line is
trimmed; an empty or `Content-Length:` line is discarded. `JSON.parse` is
external code and appears as the `parse` parameter (`none` = the parse
throws); `processMessage` contains no try/catch, so a parse failure
propagates out of the `line` handler, which we model as `Except.error ()`. -/
def processLine (parse : List Char → Option TsMessage) (st : ClientState)
    (line : List Char) : Except Unit ClientState :=
  let messageString := jsTrim line
  if messageString.isEmpty || (str "Content-Length:").isPrefixOf messageString then .ok st
  else
    match parse messageString with
    | none => .error ()
    | some m => .ok (processMsg st m)

/-- An event observable by the transport: a parsed stdout line, or the death
of the tsserver child process. `tsp-client.ts` installs listeners only on the
child's stdout and stderr (and a `process.on('exit')` hook of the server
itself that kills the child); no listener observes the child's exit, so a
child death leaves the pending table untouched. -/
inductive TransportEvent where
  | line (m : TsMessage)
  | childExit
deriving DecidableEq, Repr

/-- One transport step. -/
def stepTransport (st : ClientState) (e : TransportEvent) : ClientState :=
  match e with
  | .line m => processMsg st m
  | .childExit => st

/-- A run of the transport over a sequence of events. -/
def runTransport (st : ClientState) (es : List TransportEvent) : ClientState :=
  es.foldl stepTransport st

/-- How many times the future for sequence `s` has been settled. -/
def settledCount (s : Nat) (st : ClientState) : Nat :=
  (st.settled.filter (fun p => decide (p.1 = s))).length

/-- Does this transport event settle the future for sequence `s`
(a matching response or a matching `requestCompleted` event)? -/
def matchesSeq (s : Nat) : TransportEvent → Bool
  | .line (.response rs _) => decide (rs = s)
  | .line (.requestCompleted rs) => decide (rs = s)
  | _ => false

/-! The diagnostics coordination loop of `lsp-server.ts`
(`interuptDiagnostics` / `requestDiagnostics` / `doRequestDiagnostics` /
`cancelDiagnostics`). `diagnosticsTokenSource` holds the cancellation token of
the current `geterr`; cancelling writes the token into a cancellation set but
does not remove the request from the transport (the cancellation-pipe file is
best effort). We track, per in-flight geterr, its transport sequence number
and its token. -/

/-- State of the diagnostics loop combined with the geterr requests still
pending at the transport. -/
structure DiagState where
  nextSeq : Nat
  nextToken : Nat
  current : Option Nat
  cancelled : List Nat
  pending : List (Nat × Nat)
deriving DecidableEq, Repr

/-- Association-list lookup of the token of a pending geterr by sequence. -/
def lookupTok : List (Nat × Nat) → Nat → Option Nat
  | [], _ => none
  | p :: rest, s => if p.1 = s then some p.2 else lookupTok rest s

/-- Removes the pending geterr with the given sequence. -/
def erasePending : List (Nat × Nat) → Nat → List (Nat × Nat)
  | [], _ => []
  | p :: rest, s => if p.1 = s then rest else p :: erasePending rest s

/-- Effects emitted by the diagnostics loop. -/
inductive DiagEffect where
  | cancelToken (t : Nat)
  | sendGeterr (seq : Nat)
  | runRead
  | scheduleDiagnostics
deriving DecidableEq, Repr

/-- Embeds `LspServer.cancelDiagnostics`: cancel the current token source and
clear `diagnosticsTokenSource`. -/
def cancelDiagnostics (st : DiagState) : DiagState :=
  match st.current with
  | none => st
  | some t => { st with cancelled := t :: st.cancelled, current := none }

/-- Embeds `LspServer.doRequestDiagnostics`: cancel the previous geterr, make
a fresh token source the current one, and send a new `geterr` request
(sequence numbers are assigned by `sendMessage`, which increments `seq` before
use). The await of the request finishes later (`geterrSettled`). -/
def doRequestDiagnostics (st : DiagState) : DiagState × List DiagEffect :=
  let st1 := cancelDiagnostics st
  let t := st1.nextToken
  let seq := st1.nextSeq + 1
  ({ nextSeq := seq, nextToken := t + 1, current := some t,
     cancelled := st1.cancelled, pending := st1.pending ++ [(seq, t)] },
   (match st.current with
    | some t0 => [DiagEffect.cancelToken t0]
    | none => []) ++ [DiagEffect.sendGeterr seq])

/-- The geterr request `seq` settles at the transport (response,
`requestCompleted`, or rejection): the awaiting `doRequestDiagnostics`
resumes and its `finally` block clears `diagnosticsTokenSource` only when it
still holds that request's token source. -/
def geterrSettled (st : DiagState) (seq : Nat) : DiagState :=
  match lookupTok st.pending seq with
  | none => st
  | some t =>
    { st with pending := erasePending st.pending seq,
              current := if st.current = some t then none else st.current }

/-- Embeds `LspServer.interuptDiagnostics`: with no diagnostics in flight just
run the read; otherwise cancel the in-flight diagnostics, run the read, then
re-schedule diagnostics (`requestDiagnostics` is the 200 ms debounced wrapper,
so the re-issue itself arrives later as a `fireDiagnostics` event). -/
def interuptDiagnostics (st : DiagState) : DiagState × List DiagEffect :=
  match st.current with
  | none => (st, [DiagEffect.runRead])
  | some t => (cancelDiagnostics st,
               [DiagEffect.cancelToken t, DiagEffect.runRead, DiagEffect.scheduleDiagnostics])

/-- Events driving the diagnostics loop. -/
inductive DiagEvent where
  | fireDiagnostics
  | settled (seq : Nat)
  | interruptRead
deriving DecidableEq, Repr

/-- One step of the diagnostics loop. -/
def stepDiag (st : DiagState) (e : DiagEvent) : DiagState :=
  match e with
  | .fireDiagnostics => (doRequestDiagnostics st).1
  | .settled seq => geterrSettled st seq
  | .interruptRead => (interuptDiagnostics st).1

/-- A run of the diagnostics loop. -/
def runDiag (st : DiagState) (es : List DiagEvent) : DiagState :=
  es.foldl stepDiag st

/-- The initial diagnostics state: nothing in flight, nothing cancelled. -/
def diagInit : DiagState :=
  { nextSeq := 0, nextToken := 0, current := none, cancelled := [], pending := [] }

/-- The in-flight geterr requests whose cancellation has not been requested. -/
def uncancelledPending (st : DiagState) : List (Nat × Nat) :=
  st.pending.filter (fun p => decide (p.2 ∉ st.cancelled))

/-! The completion pipeline from `completion.ts`, plus the constants it uses
from `tsp-command-types.ts` / `protocol.const.ts` (files not under src;
modelled from the spec where noted). -/

/-- The tsserver `ScriptElementKind` values referenced by the code (the enum
lives in `tsp-command-types.ts`, not under src; constructor names follow the
enum member names used by `completion.ts` and `lsp-server.ts`, plus the kinds
appearing in our concrete inputs). -/
inductive ScriptElementKind where
  | primitiveType
  | keyword
  | constElement
  | letElement
  | variableElement
  | localVariableElement
  | alias
  | memberVariableElement
  | memberGetAccessorElement
  | memberSetAccessorElement
  | functionElement
  | memberFunctionElement
  | constructSignatureElement
  | callSignatureElement
  | indexSignatureElement
  | enumElement
  | moduleElement
  | externalModuleName
  | classElement
  | typeElement
  | interfaceElement
  | warning
  | scriptElement
  | directory
  | string
  | property
deriving DecidableEq, Repr

/-- The LSP completion-item kinds produced by `asCompletionItemKind`. -/
inductive CompletionItemKind where
  | Keyword
  | Constant
  | Variable
  | Field
  | Function
  | Method
  | Enum
  | Module
  | Class
  | Interface
  | File
  | Folder
  | Property
deriving DecidableEq, Repr

/-- LSP `InsertTextFormat`. -/
inductive InsertTextFormat where
  | plainText
  | snippet
deriving DecidableEq, Repr

/-- A 1-based tsserver location (`protocol.Location`). -/
structure TsLocation where
  line : Nat
  offset : Nat
deriving DecidableEq, Repr

/-- A tsserver `TextSpan` (`endPos` stands for the wire field `end`). -/
structure TextSpan where
  start : TsLocation
  endPos : TsLocation
deriving DecidableEq, Repr

/-- Modelled from the spec: `asRange` lives in `protocol-translation.ts`,
which is not under src; section 4.2 specifies that it converts the 1-based
tsserver span to a 0-based LSP range. `Nat` subtraction truncates at 0 for
(invalid) 0-valued wire inputs. -/
def asRange (sp : TextSpan) : Range :=
  { start := { line := sp.start.line - 1, character := sp.start.offset - 1 },
    endPos := { line := sp.endPos.line - 1, character := sp.endPos.offset - 1 } }

/-- A tsserver `protocol.CompletionEntry` with the fields `completion.ts` and
`lsp-server.ts` read. -/
structure CompletionEntry where
  name : List Char
  kind : ScriptElementKind
  sortText : List Char := str "0"
  kindModifiers : Option (List Char) := none
  insertText : Option (List Char) := none
  replacementSpan : Option TextSpan := none
  source : Option (List Char) := none
  isRecommended : Bool := false
  hasAction : Bool := false
deriving DecidableEq, Repr

/-- One element of the `entryNames` array stored in completion-item `data`. -/
inductive EntryName where
  | plain (name : List Char)
  | withSource (name source : List Char)
deriving DecidableEq, Repr

/-- The `data` field of a produced completion item: the exact argument of the
later `completionEntryDetails` request. -/
structure CompletionData where
  file : String
  line : Nat
  offset : Nat
  entryNames : List EntryName
deriving DecidableEq, Repr

/-- An LSP `TextEdit`. -/
structure TextEdit where
  range : Range
  newText : List Char
deriving DecidableEq, Repr

/-- The produced LSP completion item (`TSCompletionItem`), restricted to the
fields `asCompletionItem` writes. -/
structure TSCompletionItem where
  label : List Char
  kind : CompletionItemKind
  sortText : List Char
  commitCharacters : Option (List Char)
  data : CompletionData
  filterText : Option (List Char)
  insertText : Option (List Char)
  insertTextFormat : Option InsertTextFormat
  preselect : Bool
  detail : Option (List Char)
  textEdit : Option TextEdit
deriving DecidableEq, Repr

/-- JS truthiness of an optional string: undefined and the empty string are
falsy. -/
def strTruthy : Option (List Char) → Bool
  | none => false
  | some s => !s.isEmpty

/-- JS `o?.startsWith(p)` coerced to a boolean. -/
def optStarts (o : Option (List Char)) (p : List Char) : Bool :=
  match o with
  | some s => p.isPrefixOf s
  | none => false

/-- Embeds `asCompletionItemKind` (the switch over `ScriptElementKind`). -/
def asCompletionItemKind (kind : ScriptElementKind) : CompletionItemKind :=
  match kind with
  | .primitiveType | .keyword => .Keyword
  | .constElement => .Constant
  | .letElement | .variableElement | .localVariableElement | .alias => .Variable
  | .memberVariableElement | .memberGetAccessorElement | .memberSetAccessorElement => .Field
  | .functionElement => .Function
  | .memberFunctionElement | .constructSignatureElement
  | .callSignatureElement | .indexSignatureElement => .Method
  | .enumElement => .Enum
  | .moduleElement | .externalModuleName => .Module
  | .classElement | .typeElement => .Class
  | .interfaceElement => .Interface
  | .warning | .scriptElement => .File
  | .directory => .Folder
  | .string => .Constant
  | _ => .Property

/-- Embeds `asCommitCharacters` (commit characters by element kind; each JS
array element is a one-character string, modelled as a `Char`). -/
def asCommitCharacters (kind : ScriptElementKind) : Option (List Char) :=
  let commitCharacters : List Char :=
    match kind with
    | .memberGetAccessorElement | .memberSetAccessorElement | .constructSignatureElement
    | .callSignatureElement | .indexSignatureElement | .enumElement | .interfaceElement => ['.']
    | .moduleElement | .alias | .constElement | .letElement | .variableElement
    | .localVariableElement | .memberVariableElement | .classElement | .functionElement
    | .memberFunctionElement => ['.', ',', '(']
    | _ => []
  if commitCharacters.isEmpty then none else some commitCharacters

/-- Characters matched by the JS regex `.` (dot) with dotAll off: everything
except the four line terminators. -/
def isRegexDotChar (c : Char) : Bool :=
  !(decide (c = '\n') || decide (c = '\r') ||
    decide (c = Char.ofNat 0x2028) || decide (c = Char.ofNat 0x2029))

/-- Splits off the last two characters of a list. -/
def splitLastTwo (l : List Char) : Option (List Char × Char × Char) :=
  match l.reverse with
  | z :: c :: midrev => some (midrev.reverse, c, z)
  | _ => none

/-- The matcher compiled from the code's regex `^\[['"](.+)[['"]\]$`
(note: its closing character class is `[['"]`, so it also admits `[`).
Anchored at both ends with two fixed characters after the greedy `(.+)`, the
only possible match takes the capture to be everything strictly between
position 2 and the final two characters; the capture must be nonempty and may
not contain a line terminator. Returns the capture group on a match. -/
def bracketCapture (s : List Char) : Option (List Char) :=
  match s with
  | '[' :: q :: rest =>
    if decide (q = '\'') || decide (q = '"') then
      match splitLastTwo rest with
      | some (mid, c, z) =>
        if (decide (c = '[') || decide (c = '\'') || decide (c = '"')) &&
           decide (z = ']') && !mid.isEmpty && mid.all isRegexDotChar
        then some mid else none
      | none => none
    else none
  | _ => none

/-- JS `insertText.replace(/^\[['"](.+)[['"]\]$/, '.$1')`: the pattern is
anchored, so a match rewrites the whole string to `.` plus the capture and a
non-match leaves the string unchanged. -/
def bracketReplace (s : List Char) : List Char :=
  match bracketCapture s with
  | some mid => '.' :: mid
  | none => s

/-- Embeds `getFilterText` from `completion.ts`. For a private-field name
(`#...`) the word at the cursor decides whether the `this.#`/`#` prefix is
kept; `charAt` out of range yields the empty string, which is never `'#'`
(the `'x'` default preserves that). Otherwise: `this.`-prefixed insert text
suppresses the filter text, a `[`-prefixed insert text goes through the
bracket-accessor rewrite, and anything else passes through. -/
def getFilterText (line : List Char) (insertText : Option (List Char))
    (entry : CompletionEntry) (position : Position) (document : TextDoc) :
    Option (List Char) :=
  if (str "#").isPrefixOf entry.name then
    let wordRange := document.getWordRangeAtPosition position
    let wordStartIsHash :=
      match wordRange with
      | some r => decide (line.getD r.start.character 'x' = '#')
      | none => false
    match insertText with
    | some s =>
      if (str "this.#").isPrefixOf s then
        if wordStartIsHash then some s else some (s.drop 6)
      else some s
    | none =>
      if wordStartIsHash then none else some (entry.name.drop 1)
  else if optStarts insertText (str "this.") then none
  else if optStarts insertText (str "[") then insertText.map bracketReplace
  else insertText

/-- JS `kindModifiers.split(/\s+/g)`: splits on maximal whitespace runs,
keeping the empty pieces a leading or trailing run produces. -/
def splitWsGo (l : List Char) (acc : List Char) : List (List Char) :=
  match l with
  | [] => [acc.reverse]
  | c :: rest =>
    if jsIsWs c then acc.reverse :: splitWsGo (rest.dropWhile jsIsWs) []
    else splitWsGo rest (c :: acc)
termination_by l.length
decreasing_by
  · simp only [List.length_cons]
    exact Nat.lt_succ_of_le (List.dropWhile_sublist jsIsWs).length_le
  · simp

/-- JS `kindModifiers.split(/\s+/g)`. -/
def splitWs (s : List Char) : List (List Char) :=
  splitWsGo s []

/-- Modelled from the spec: `protocol.const.ts` is not under src; section 6.3
lists the file-extension kind modifiers `.d.ts`, `.ts`, `.tsx`, `.js`,
`.jsx`. -/
def fileExtensionKindModifiers : List (List Char) :=
  [str ".d.ts", str ".ts", str ".tsx", str ".js", str ".jsx"]

/-- JS `String.prototype.toLowerCase` on the characters we use (ASCII). -/
def toLowerStr (s : List Char) : List Char :=
  s.map Char.toLower

/-- Embeds lines 87-91 of `completion.ts`: convert `entry.replacementSpan`
when present, and when the converted range spans several lines clamp its end
to the end of the starting line. -/
def computeReplacementRange (entry : CompletionEntry) (document : TextDoc) : Option Range :=
  match entry.replacementSpan with
  | none => none
  | some sp =>
    let r := asRange sp
    if r.start.line ≠ r.endPos.line
    then some { start := r.start, endPos := document.getLineEnd r.start.line }
    else some r

/-- Embeds lines 123-128 of `completion.ts`: a text edit is emitted exactly
when both a replacement range and a truthy (local) insert text are at hand. -/
def mkTextEdit (replacementRange : Option Range) (insertText : Option (List Char)) :
    Option TextEdit :=
  match replacementRange with
  | some rr =>
    if strTruthy insertText then some { range := rr, newText := insertText.getD [] }
    else none
  | none => none

/-- Embeds `asCompletionItem` from `completion.ts` (the four-parameter
function actually exported and called by `LspServer.completion`). The mutable
locals `insertText` and `item.label` / `item.filterText` of the kind-modifier
block are threaded explicitly; `item.insertText` keeps the early assignment
`entry.insertText` when a text edit is emitted, and receives the updated
local `insertText` otherwise, exactly as in the source. -/
def asCompletionItem (entry : CompletionEntry) (file : String) (position : Position)
    (document : TextDoc) : TSCompletionItem :=
  let sortText := match entry.source with
    | some _ => Char.ofNat 0xffff :: entry.sortText
    | none => entry.sortText
  let kind := asCompletionItemKind entry.kind
  let insertTextFormat :=
    if kind = CompletionItemKind.Function ∨ kind = CompletionItemKind.Method
    then some InsertTextFormat.snippet else none
  let insertText0 := entry.insertText
  let line := document.getLine (position.line + 1)
  let filterText0 := getFilterText line insertText0 entry position document
  let replacementRange := computeReplacementRange entry document
  let kmActive := strTruthy entry.kindModifiers
  let kindModifiersSet := match entry.kindModifiers with
    | some s => splitWs s
    | none => []
  let optionalHit := kmActive && kindModifiersSet.contains (str "optional")
  let insertText1 := if optionalHit && !strTruthy insertText0 then some entry.name else insertText0
  let filterText1 := if optionalHit && !strTruthy filterText0 then some entry.name else filterText0
  let label1 := if optionalHit then entry.name ++ str "?" else entry.name
  let detail :=
    if kmActive && decide (entry.kind = ScriptElementKind.scriptElement) then
      match fileExtensionKindModifiers.find? (fun ext => kindModifiersSet.contains ext) with
      | some ext =>
        some (if ext.isSuffixOf (toLowerStr entry.name) then entry.name else entry.name ++ ext)
      | none => none
    else none
  let textEdit := mkTextEdit replacementRange insertText1
  let finalInsertText := match textEdit with
    | some _ => insertText0
    | none => insertText1
  { label := label1,
    kind := kind,
    sortText := sortText,
    commitCharacters := asCommitCharacters entry.kind,
    data := { file := file, line := position.line + 1, offset := position.character + 1,
              entryNames := [match entry.source with
                             | some src => EntryName.withSource entry.name src
                             | none => EntryName.plain entry.name] },
    filterText := filterText1,
    insertText := finalInsertText,
    insertTextFormat := insertTextFormat,
    preselect := entry.isRecommended,
    detail := detail,
    textEdit := textEdit }

/-! The LSP request dispatcher from `lsp-server.ts`. `uriToPath` lives in
`protocol-translation.ts` (not under src) and is passed in as the function
parameter `u2p`. Observable outputs (tsserver notifications, published
diagnostics, the debounced diagnostics scheduling) become an effect list. -/

/-- Arguments of the tsserver notifications the dispatcher sends. -/
inductive NotifyArgs where
  | openN (file : String) (fileContent : List Char) (scriptKindName : Option String)
          (projectRootPath : String)
  | closeN (file : String)
  | changeN (file : String) (line offset endLine endOffset : Nat) (insertString : List Char)
deriving DecidableEq, Repr

/-- Effects the dispatcher performs. -/
inductive Eff where
  | tsNotify (args : NotifyArgs)
  | publishDiagnostics (uri : String) (diagnostics : List Unit)
  | scheduleDiagnostics
deriving DecidableEq, Repr

/-- The dispatcher state the modelled handlers touch. -/
structure ServerState where
  documents : ServerDocs
  rootPath : String
deriving DecidableEq, Repr

/-- Embeds `LspServer.getScriptKindName`. -/
def getScriptKindName (languageId : String) : Option String :=
  if languageId = "typescript" then some "TS"
  else if languageId = "typescriptreact" then some "TSX"
  else if languageId = "javascript" then some "JS"
  else if languageId = "javascriptreact" then some "JSX"
  else none

/-- The `VersionedTextDocumentIdentifier` of `didChange` (`version` may be
null on the wire). -/
structure VersionedTextDocumentIdentifier where
  uri : String
  version : Option Int
deriving DecidableEq, Repr

/-- Parameters of `didChange`. -/
structure DidChangeParams where
  textDocument : VersionedTextDocumentIdentifier
  contentChanges : List ContentChange
deriving DecidableEq, Repr

/-- Parameters of `didOpen`. -/
structure DidOpenParams where
  textDocument : TextDocumentItem
deriving DecidableEq, Repr

/-- Parameters of `didClose` (only the uri is read). -/
structure DidCloseParams where
  uri : String
deriving DecidableEq, Repr

/-- The per-change body of the `didChange` loop: build the tsserver `change`
arguments (1-based; a change without a range covers the whole current text,
whose end is computed with `positionAt` on the text before the edit), notify,
then apply the edit to the mirror document. -/
def applyChanges (file : String) (v : Int) :
    TextDoc → List ContentChange → TextDoc × List Eff
  | d, [] => (d, [])
  | d, change :: rest =>
    let args : NotifyArgs :=
      match change.range with
      | some r => NotifyArgs.changeN file (r.start.line + 1) (r.start.character + 1)
                    (r.endPos.line + 1) (r.endPos.character + 1) change.text
      | none =>
        let endPos := d.positionAt d.text.length
        NotifyArgs.changeN file 1 1 (endPos.line + 1) (endPos.character + 1) change.text
    let d2 := d.applyEdit v change
    let next := applyChanges file v d2 rest
    (next.1, Eff.tsNotify args :: next.2)

/-- Embeds `LspServer.didChangeTextDocument`: resolve the uri (no path → no
effect); an unopened document or a null version throws; otherwise loop over
the changes and re-schedule diagnostics. The `get` moves the file to the
front of the access list, and the mirror ends up holding the edited
document. -/
def didChangeTextDocument (u2p : String → Option String) (st : ServerState)
    (params : DidChangeParams) : Except String (ServerState × List Eff) :=
  match u2p params.textDocument.uri with
  | none => .ok (st, [])
  | some file =>
    let gd := getDocs st.documents file
    match gd.1 with
    | none => .error ("Received change on non-opened document " ++ params.textDocument.uri)
    | some document =>
      match params.textDocument.version with
      | none => .error ("Received document change event for " ++ params.textDocument.uri ++
                        " without valid version identifier")
      | some v =>
        let ac := applyChanges file v document params.contentChanges
        .ok ({ st with documents := { files := gd.2.files,
                                      docs := updateDoc gd.2.docs file ac.1 } },
             ac.2 ++ [Eff.scheduleDiagnostics])

/-- Embeds `LspServer.didOpenTextDocument`: resolve the uri; if the mirror
accepts the open, notify tsserver (`open`) and schedule diagnostics; if the
file is already open, fall back to `didChangeTextDocument` with one full-text
(range-less) change carrying the new text. -/
def didOpenTextDocument (u2p : String → Option String) (st : ServerState)
    (params : DidOpenParams) : Except String (ServerState × List Eff) :=
  match u2p params.textDocument.uri with
  | none => .ok (st, [])
  | some file =>
    let od := openDocs st.documents file params.textDocument
    if od.1 then
      .ok ({ st with documents := od.2 },
           [Eff.tsNotify (NotifyArgs.openN file params.textDocument.text
              (getScriptKindName params.textDocument.languageId) st.rootPath),
            Eff.scheduleDiagnostics])
    else
      didChangeTextDocument u2p st
        { textDocument := { uri := params.textDocument.uri,
                            version := some params.textDocument.version },
          contentChanges := [{ text := params.textDocument.text }] }

/-- Embeds `LspServer.closeDocument`: nothing happens for a file the mirror
does not hold; otherwise notify tsserver (`close`) and publish an empty
diagnostics list for the document's uri. -/
def closeDocument (st : ServerState) (file : String) : ServerState × List Eff :=
  let cd := closeDocs st.documents file
  match cd.1 with
  | none => (st, [])
  | some document =>
    ({ st with documents := cd.2 },
     [Eff.tsNotify (NotifyArgs.closeN file),
      Eff.publishDiagnostics document.uri []])

/-- Embeds `LspServer.didCloseTextDocument`. -/
def didCloseTextDocument (u2p : String → Option String) (st : ServerState)
    (params : DidCloseParams) : ServerState × List Eff :=
  match u2p params.uri with
  | none => (st, [])
  | some file => closeDocument st file

/-- The length of the leftmost match of the regex `/\??\.\s*$/` on a line
prefix, or none. Anchored at the end, the match is the maximal trailing
whitespace run, the `.` right before it, and a directly preceding `?` when
present (`lsp-server.ts` line 525). -/
def dotMatchLen (s : List Char) : Option Nat :=
  let r := s.reverse
  let k := (r.takeWhile jsIsWs).length
  match r.drop k with
  | '.' :: '?' :: _ => some (k + 2)
  | '.' :: _ => some (k + 1)
  | _ => none

/-- The member-completion dot-accessor context (`DotAccessorContext` in
`lsp-server.ts`). -/
structure DotAccessorContext where
  range : Range
  text : List Char
deriving DecidableEq, Repr

/-- The completion configuration hard-coded in `LspServer.completion`. -/
structure CompletionConfiguration where
  useCodeSnippetsOnMethodSuggest : Bool
  nameSuggestions : Bool
  pathSuggestions : Bool
  autoImportSuggestions : Bool
  includeAutomaticOptionalChainCompletions : Bool
deriving DecidableEq, Repr

/-- Embeds `showExcludeCompletionEntry` (`PConst.Kind.warning / directory /
script / externalModuleName` are the string constants matching the
`ScriptElementKind` constructors of the same wire value). -/
def showExcludeCompletionEntry (element : CompletionEntry)
    (cfg : CompletionConfiguration) : Bool :=
  (!cfg.nameSuggestions && decide (element.kind = ScriptElementKind.warning)) ||
  (!cfg.pathSuggestions &&
    (decide (element.kind = ScriptElementKind.directory) ||
     decide (element.kind = ScriptElementKind.scriptElement) ||
     decide (element.kind = ScriptElementKind.externalModuleName))) ||
  (!cfg.autoImportSuggestions && element.hasAction)

/-- The literal configuration object built inside `LspServer.completion`. -/
def defaultCompletionConfiguration : CompletionConfiguration :=
  { useCodeSnippetsOnMethodSuggest := false, pathSuggestions := true,
    autoImportSuggestions := true, nameSuggestions := true,
    includeAutomaticOptionalChainCompletions := true }

/-- Parameters of `textDocument/completion` that the handler reads. -/
structure CompletionParams where
  uri : String
  position : Position
deriving DecidableEq, Repr

/-- The body of a tsserver `completionInfo` response. -/
structure CompletionBody where
  isGlobalCompletion : Bool := false
  isMemberCompletion : Bool
  isNewIdentifierLocation : Bool
  entries : List CompletionEntry
deriving DecidableEq, Repr

/-- A tsserver `completionInfo` response as the handler inspects it
(`rtype` is the wire field `type`). -/
structure CompletionResponse where
  rtype : String
  body : Option CompletionBody
deriving DecidableEq, Repr

/-- The produced LSP completion list. -/
structure CompletionList where
  isIncomplete : Bool
  items : List TSCompletionItem
deriving DecidableEq, Repr

/-- Embeds `LspServer.completion`. A uri without a path yields the empty
list; a path whose document is not in the mirror throws (before the
try/catch). The tsserver round trip happens inside `interuptDiagnostics`; its
outcome is the `result` parameter, where `Except.error msg` is a rejected
request promise — the catch block turns exactly the message
"No content available." into a null result and rethrows anything else.
On success, a non-response or missing body yields null; otherwise the
dot-accessor context is computed for member completions, the entries are
filtered with the hard-coded configuration, and each one is mapped through
`asCompletionItem`. The call site also passes a fifth completion-context
argument (carrying `dotAccessorContext`), which the four-parameter
`asCompletionItem` cannot receive — matching the JS runtime, where the extra
argument is dropped, the context is computed and then unused. -/
def completion (u2p : String → Option String) (st : ServerState)
    (params : CompletionParams) (result : Except String CompletionResponse) :
    ServerState × Except String (Option CompletionList) :=
  match u2p params.uri with
  | none => (st, .ok (some { isIncomplete := false, items := [] }))
  | some file =>
    let gd := getDocs st.documents file
    let st' := { st with documents := gd.2 }
    match gd.1 with
    | none => (st', .error ("The document should be opened for completion, file: " ++ file))
    | some document =>
      match result with
      | .error msg =>
        if msg = "No content available." then (st', .ok none) else (st', .error msg)
      | .ok r =>
        match r.body with
        | none => (st', .ok none)
        | some body =>
          if r.rtype ≠ "response" then (st', .ok none)
          else
            let dotAccessorContext : Option DotAccessorContext :=
              if body.isMemberCompletion then
                let line := document.lineAt params.position.line
                match dotMatchLen (line.take params.position.character) with
                | some k =>
                  let range : Range :=
                    { start := { line := params.position.line,
                                 character := params.position.character - k },
                      endPos := params.position }
                  some { range := range, text := document.getText range }
                | none => none
              else none
            let items :=
              (body.entries.filter
                (fun e => !showExcludeCompletionEntry e defaultCompletionConfiguration)).map
                (fun e => asCompletionItem e file params.position document)
            (st', .ok (some { isIncomplete := false, items := items }))

/-! Spec-side definitions used to compare the code against the claims. -/

/-- The matcher of the claim's regex `^\[['"](.+)['"]\]$` — identical to
`bracketCapture` except that the closing character class admits only the two
quote characters, not `[`. -/
def specBracketCapture (s : List Char) : Option (List Char) :=
  match s with
  | '[' :: q :: rest =>
    if decide (q = '\'') || decide (q = '"') then
      match splitLastTwo rest with
      | some (mid, c, z) =>
        if (decide (c = '\'') || decide (c = '"')) &&
           decide (z = ']') && !mid.isEmpty && mid.all isRegexDotChar
        then some mid else none
      | none => none
    else none
  | _ => none

/-- The filter-text rule exactly as claim C9 states it for entries whose name
does not start with `#`: a `this.`-prefixed insert text gives no filter text;
an insert text matching the claim's regex gives `.` plus the capture; any
other insert text passes through (none when absent). -/
def specFilterTextC9 (insertText : Option (List Char)) : Option (List Char) :=
  match insertText with
  | none => none
  | some s =>
    if (str "this.").isPrefixOf s then none
    else
      match specBracketCapture s with
      | some mid => some ('.' :: mid)
      | none => some s

/-- The invariant of the diagnostics loop: every in-flight geterr whose
cancellation has not been requested is the current one; tokens and sequence
numbers of in-flight geterrs are pairwise distinct and bounded by the
counters. -/
def DiagInv (st : DiagState) : Prop :=
  (∀ p ∈ st.pending, p.2 ∈ st.cancelled ∨ st.current = some p.2)
  ∧ (st.pending.map Prod.snd).Nodup
  ∧ (∀ p ∈ st.pending, p.2 < st.nextToken)
  ∧ (st.pending.map Prod.fst).Nodup
  ∧ (∀ p ∈ st.pending, p.1 ≤ st.nextSeq)

/-! Theorems. -/

/-- A settlement for a different sequence never changes the count for `S`. -/
theorem settledCount_append_other (settled : List (Nat × Bool)) (deferreds : List Nat)
    (S rs : Nat) (b : Bool) (h : rs ≠ S) :
    settledCount S { deferreds := deferreds, settled := settled ++ [(rs, b)] } =
      settledCount S { deferreds := deferreds, settled := settled } := by
  simp [settledCount, List.filter_append, h]

/-- A settlement for `S` itself raises the count by exactly one. -/
theorem settledCount_append_self (settled : List (Nat × Bool)) (deferreds : List Nat)
    (S : Nat) (b : Bool) :
    settledCount S { deferreds := deferreds, settled := settled ++ [(S, b)] } =
      settledCount S { deferreds := deferreds, settled := settled } + 1 := by
  simp [settledCount, List.filter_append]

/-- Once no deferred is pending for `S`, a transport step neither re-creates
one nor settles `S` again. -/
theorem stepTransport_of_not_mem (st : ClientState) (S : Nat) (e : TransportEvent)
    (h : S ∉ st.deferreds) :
    S ∉ (stepTransport st e).deferreds ∧
      settledCount S (stepTransport st e) = settledCount S st := by
  cases e with
  | childExit => exact ⟨h, rfl⟩
  | line m =>
    cases m with
    | otherEvent name => exact ⟨h, rfl⟩
    | response rs s =>
      simp only [stepTransport, processMsg, resolveResponse]
      by_cases hrs : rs ∈ st.deferreds
      · have hne : rs ≠ S := fun hEq => h (hEq ▸ hrs)
        simp only [hrs, if_true]
        constructor
        · intro hmem
          exact h (List.mem_of_mem_erase hmem)
        · exact settledCount_append_other st.settled _ S rs s hne
      · simp only [hrs, if_false]
        exact ⟨h, trivial⟩
    | requestCompleted rs =>
      simp only [stepTransport, processMsg, resolveResponse]
      by_cases hrs : rs ∈ st.deferreds
      · have hne : rs ≠ S := fun hEq => h (hEq ▸ hrs)
        simp only [hrs, if_true]
        constructor
        · intro hmem
          exact h (List.mem_of_mem_erase hmem)
        · exact settledCount_append_other st.settled _ S rs true hne
      · simp only [hrs, if_false]
        exact ⟨h, trivial⟩

/-- Once no deferred is pending for `S`, a whole run neither re-creates one
nor settles `S` again. -/
theorem runTransport_of_not_mem (S : Nat) (es : List TransportEvent) :
    ∀ st : ClientState, S ∉ st.deferreds →
      S ∉ (runTransport st es).deferreds ∧
        settledCount S (runTransport st es) = settledCount S st := by
  induction es with
  | nil => exact fun st h => ⟨h, rfl⟩
  | cons e es ih =>
    intro st h
    have hstep := stepTransport_of_not_mem st S e h
    have hrun := ih (stepTransport st e) hstep.1
    exact ⟨hrun.1, hrun.2.trans hstep.2⟩

/-- A matching step (response or `requestCompleted` for `S`) removes the
pending entry and settles `S` exactly once. -/
theorem stepTransport_matching (st : ClientState) (S : Nat) (e : TransportEvent)
    (hmem : S ∈ st.deferreds) (hcount : st.deferreds.count S ≤ 1)
    (hmatch : matchesSeq S e = true) :
    S ∉ (stepTransport st e).deferreds ∧
      settledCount S (stepTransport st e) = settledCount S st + 1 := by
  have hnotmem : S ∉ st.deferreds.erase S := by
    have h1 := List.count_erase_self S st.deferreds
    intro hmem2
    have h2 := List.count_pos_iff.mpr hmem2
    omega
  cases e with
  | childExit => simp [matchesSeq] at hmatch
  | line m =>
    cases m with
    | otherEvent name => simp [matchesSeq] at hmatch
    | response rs s =>
      have hrs : rs = S := by simpa [matchesSeq] using hmatch
      subst hrs
      simp only [stepTransport, processMsg, resolveResponse, hmem, if_true]
      exact ⟨hnotmem, settledCount_append_self st.settled _ rs s⟩
    | requestCompleted rs =>
      have hrs : rs = S := by simpa [matchesSeq] using hmatch
      subst hrs
      simp only [stepTransport, processMsg, resolveResponse, hmem, if_true]
      exact ⟨hnotmem, settledCount_append_self st.settled _ rs true⟩

/-- A non-matching transport event preserves the pending multiplicity of `S`
and its settlement count. -/
theorem stepTransport_nonmatching (st : ClientState) (S : Nat) (e : TransportEvent)
    (hmatch : matchesSeq S e = false) :
    (stepTransport st e).deferreds.count S = st.deferreds.count S ∧
      settledCount S (stepTransport st e) = settledCount S st := by
  cases e with
  | childExit => exact ⟨rfl, rfl⟩
  | line m =>
    cases m with
    | otherEvent name => exact ⟨rfl, rfl⟩
    | response rs s =>
      have hne : rs ≠ S := by simpa [matchesSeq] using hmatch
      simp only [stepTransport, processMsg, resolveResponse]
      by_cases hrs : rs ∈ st.deferreds
      · simp only [hrs, if_true]
        exact ⟨List.count_erase_of_ne (Ne.symm hne) st.deferreds,
               settledCount_append_other st.settled _ S rs s hne⟩
      · simp [hrs]
    | requestCompleted rs =>
      have hne : rs ≠ S := by simpa [matchesSeq] using hmatch
      simp only [stepTransport, processMsg, resolveResponse]
      by_cases hrs : rs ∈ st.deferreds
      · simp only [hrs, if_true]
        exact ⟨List.count_erase_of_ne (Ne.symm hne) st.deferreds,
               settledCount_append_other st.settled _ S rs true hne⟩
      · simp [hrs]

/-- Trace lemma: from a state in which the request `S` is pending (once) and
unsettled, any run settles `S` at most once, and exactly once — removing the
pending entry — as soon as some event of the run matches `S`. -/
theorem runTransport_pending (S : Nat) (es : List TransportEvent) :
    ∀ st : ClientState, S ∈ st.deferreds → st.deferreds.count S ≤ 1 →
      settledCount S st = 0 →
      settledCount S (runTransport st es) ≤ 1 ∧
        (es.any (matchesSeq S) = true →
          settledCount S (runTransport st es) = 1 ∧ S ∉ (runTransport st es).deferreds) := by
  induction es with
  | nil =>
    intro st _ _ hset
    refine ⟨by simp [runTransport, hset], ?_⟩
    intro hany
    simp [List.any_nil] at hany
  | cons e es ih =>
    intro st hmem hcount hset
    by_cases hm : matchesSeq S e = true
    · have hstep := stepTransport_matching st S e hmem hcount hm
      have hrun := runTransport_of_not_mem S es (stepTransport st e) hstep.1
      have hone : settledCount S (runTransport (stepTransport st e) es) = 1 := by
        rw [hrun.2, hstep.2, hset]
      have : runTransport st (e :: es) = runTransport (stepTransport st e) es := rfl
      rw [this]
      exact ⟨le_of_eq hone, fun _ => ⟨hone, hrun.1⟩⟩
    · have hmf : matchesSeq S e = false := by
        cases hx : matchesSeq S e
        · rfl
        · exact absurd hx hm
      obtain ⟨hc, hs⟩ := stepTransport_nonmatching st S e hmf
      have hpos := List.count_pos_iff.mpr hmem
      have hmem2 : S ∈ (stepTransport st e).deferreds := List.count_pos_iff.mp (by omega)
      have hcount2 : (stepTransport st e).deferreds.count S ≤ 1 := by omega
      have hset2 : settledCount S (stepTransport st e) = 0 := by omega
      have hrun := ih (stepTransport st e) hmem2 hcount2 hset2
      have heq : runTransport st (e :: es) = runTransport (stepTransport st e) es := rfl
      rw [heq]
      refine ⟨hrun.1, ?_⟩
      intro hany
      have : es.any (matchesSeq S) = true := by
        simp only [List.any_cons, hmf, Bool.false_or] at hany
        exact hany
      exact hrun.2 this

/-- Claim C1 (amended). For an outbound request with sequence number S that is
pending (its key occurs once in the table) and unsettled: over any sequence of
transport events the future settles at most once, and exactly once — with the
pending entry removed, so later messages with the same request_seq change
nothing — as soon as a matching inbound message arrives; a response with
request_seq = S resolves (success = true) or rejects (success = false) the
deferred and deletes the entry; a `requestCompleted` event with
body.request_seq = S resolves it with success; settling is a no-op once the
entry is gone; and a death of the child transport settles nothing (the client
installs no child-exit handler), so the future then never completes. -/
theorem pending_request_settled_exactly_once (st : ClientState) (S : Nat)
    (es : List TransportEvent) (hpend : S ∈ st.deferreds)
    (hcount : st.deferreds.count S ≤ 1) (hset : settledCount S st = 0) :
    settledCount S (runTransport st es) ≤ 1
    ∧ (es.any (matchesSeq S) = true →
        settledCount S (runTransport st es) = 1 ∧ S ∉ (runTransport st es).deferreds)
    ∧ (∀ b : Bool, processMsg st (.response S b) =
        { deferreds := st.deferreds.erase S, settled := st.settled ++ [(S, b)] })
    ∧ processMsg st (.requestCompleted S) =
        { deferreds := st.deferreds.erase S, settled := st.settled ++ [(S, true)] }
    ∧ (∀ st' : ClientState, S ∉ st'.deferreds → ∀ b, resolveResponse st' S b = st')
    ∧ stepTransport st .childExit = st := by
  have htrace := runTransport_pending S es st hpend hcount hset
  refine ⟨htrace.1, htrace.2, ?_, ?_, ?_, rfl⟩
  · intro b
    simp [processMsg, resolveResponse, hpend]
  · simp [processMsg, resolveResponse, hpend]
  · intro st' h b
    simp [resolveResponse, h]

/-- Witness for C1: a concrete pending request settled by its response. -/
theorem pending_request_settled_exactly_once_witness :
    settledCount 5 (runTransport { deferreds := [5], settled := [] }
      [TransportEvent.line (TsMessage.response 5 true)]) = 1
    ∧ 5 ∉ (runTransport { deferreds := [5], settled := [] }
      [TransportEvent.line (TsMessage.response 5 true)]).deferreds := by
  have h := pending_request_settled_exactly_once { deferreds := [5], settled := [] } 5
    [TransportEvent.line (TsMessage.response 5 true)] (by decide) (by decide) (by decide)
  exact h.2.1 (by decide)

/-- Counterexample for C1 as stated: when the child transport dies before any
matching message, the code completes nothing — the pending entry stays and
the settlement count remains zero, so the future does not complete with a
transport-dead error. -/
theorem childExit_leaves_future_pending :
    runTransport { deferreds := [3], settled := [] } [TransportEvent.childExit] =
      { deferreds := [3], settled := [] }
    ∧ settledCount 3 (runTransport { deferreds := [3], settled := [] }
        [TransportEvent.childExit]) = 0
    ∧ 3 ∈ (runTransport { deferreds := [3], settled := [] }
        [TransportEvent.childExit]).deferreds := by
  refine ⟨rfl, rfl, by decide⟩

/-- Claim C3 (amended). A stdout line that trims to the empty string or to a
`Content-Length:` header is discarded with no state change, for every
behaviour of the external JSON parser; a non-empty non-header line that is
not valid JSON (the parse throws, i.e. yields none) makes `processMessage`
itself throw — there is no try/catch, so the parse error propagates out of
the line handler instead of being dropped. -/
theorem processMessage_header_and_blank_lines_discarded
    (parse : List Char → Option TsMessage) (st : ClientState) (line : List Char) :
    (((jsTrim line).isEmpty || (str "Content-Length:").isPrefixOf (jsTrim line)) = true →
      processLine parse st line = .ok st)
    ∧ ((jsTrim line).isEmpty = false →
        (str "Content-Length:").isPrefixOf (jsTrim line) = false →
        parse (jsTrim line) = none →
        processLine parse st line = .error ()) := by
  constructor
  · intro h
    simp [processLine, h]
  · intro h1 h2 hp
    simp [processLine, h1, h2, hp]

/-- Witness for C3: a blank line and a header line are both discarded. -/
theorem processMessage_header_and_blank_lines_discarded_witness :
    processLine (fun _ => none) { deferreds := [1], settled := [] } (str "  ") =
      .ok { deferreds := [1], settled := [] }
    ∧ processLine (fun _ => none) { deferreds := [1], settled := [] }
        (str "Content-Length: 76") = .ok { deferreds := [1], settled := [] } := by
  constructor
  · exact (processMessage_header_and_blank_lines_discarded (fun _ => none)
      { deferreds := [1], settled := [] } (str "  ")).1 (by decide)
  · exact (processMessage_header_and_blank_lines_discarded (fun _ => none)
      { deferreds := [1], settled := [] } (str "Content-Length: 76")).1 (by decide)

/-- Counterexample for C3 as stated: the line "oops" is not valid JSON
(`JSON.parse` throws on it, modelled by a parse returning none), and
`processMessage` propagates the exception instead of logging and dropping the
line — the result is an error, not the unchanged state the claim asserts. -/
theorem invalid_json_line_throws :
    processLine (fun _ => none) { deferreds := [1], settled := [] } (str "oops") = .error ()
    ∧ (Except.error () : Except Unit ClientState) ≠
        .ok { deferreds := [1], settled := [] } := by
  exact ⟨rfl, fun h => nomatch h⟩

/-- Membership survives removal of a pending geterr. -/
theorem mem_erasePending {l : List (Nat × Nat)} {s : Nat} {p : Nat × Nat}
    (h : p ∈ erasePending l s) : p ∈ l := by
  induction l with
  | nil => simp [erasePending] at h
  | cons q rest ih =>
    by_cases hq : q.1 = s
    · simp only [erasePending, if_pos hq] at h
      exact List.mem_cons_of_mem q h
    · simp only [erasePending, if_neg hq] at h
      rw [List.mem_cons] at h
      rcases h with h | h
      · exact h ▸ List.mem_cons_self q rest
      · exact List.mem_cons_of_mem q (ih h)

/-- Removing a pending geterr keeps a sublist. -/
theorem erasePending_sublist (l : List (Nat × Nat)) (s : Nat) :
    (erasePending l s).Sublist l := by
  induction l with
  | nil => simp [erasePending]
  | cons q rest ih =>
    by_cases hq : q.1 = s
    · simp only [erasePending, if_pos hq]
      exact (List.sublist_cons_self q rest)
    · simp only [erasePending, if_neg hq]
      exact ih.cons₂ q

/-- With pairwise-distinct sequence numbers, removing sequence `s` leaves no
entry with that sequence. -/
theorem erasePending_key_ne {l : List (Nat × Nat)} (hnd : (l.map Prod.fst).Nodup)
    {s : Nat} {p : Nat × Nat} (h : p ∈ erasePending l s) : p.1 ≠ s := by
  induction l with
  | nil => simp [erasePending] at h
  | cons q rest ih =>
    rw [List.map_cons, List.nodup_cons] at hnd
    by_cases hq : q.1 = s
    · simp only [erasePending, if_pos hq] at h
      intro hp
      exact hnd.1 (hq ▸ hp ▸ List.mem_map_of_mem Prod.fst h)
    · simp only [erasePending, if_neg hq] at h
      rw [List.mem_cons] at h
      rcases h with hEq | h
      · exact hEq ▸ hq
      · exact ih hnd.2 h

/-- `lookupTok` returns a pair actually present. -/
theorem lookupTok_mem {l : List (Nat × Nat)} {s t : Nat}
    (h : lookupTok l s = some t) : (s, t) ∈ l := by
  induction l with
  | nil => simp [lookupTok] at h
  | cons q rest ih =>
    by_cases hq : q.1 = s
    · simp only [lookupTok, if_pos hq] at h
      have hqt : q.2 = t := Option.some.inj h
      have hqe : q = (s, t) := by
        cases q
        simp only [Prod.mk.injEq]
        exact ⟨hq, hqt⟩
      exact hqe ▸ List.mem_cons_self q rest
    · simp only [lookupTok, if_neg hq] at h
      exact List.mem_cons_of_mem q (ih h)

/-- With pairwise-distinct tokens, a pending entry is determined by its
token. -/
theorem pending_uniq_by_token {l : List (Nat × Nat)} (hnd : (l.map Prod.snd).Nodup)
    {s t : Nat} (hst : (s, t) ∈ l) {p : Nat × Nat} (hp : p ∈ l) (hpt : p.2 = t) :
    p = (s, t) := by
  refine List.inj_on_of_nodup_map hnd hp hst ?_
  simpa using hpt

/-- A boolean filter whose accepted entries all carry one fixed token keeps at
most one entry of a token-distinct list. -/
theorem filter_len_le_one (l : List (Nat × Nat)) (q : Nat × Nat → Bool) (t : Nat)
    (hnd : (l.map Prod.snd).Nodup) (h : ∀ p ∈ l, q p = true → p.2 = t) :
    (l.filter q).length ≤ 1 := by
  induction l with
  | nil => simp
  | cons a rest ih =>
    rw [List.map_cons, List.nodup_cons] at hnd
    by_cases hqa : q a = true
    · have hrest : rest.filter q = [] := by
        rw [List.filter_eq_nil_iff]
        intro p hp hqp
        have hpt := h p (List.mem_cons_of_mem a hp) hqp
        have hat := h a (List.mem_cons_self a rest) hqa
        exact hnd.1 ((hat.trans hpt.symm) ▸ List.mem_map_of_mem Prod.snd hp)
      simp [List.filter_cons, hqa, hrest]
    · have : (a :: rest).filter q = rest.filter q := by
        simp [List.filter_cons, hqa]
      rw [this]
      exact ih hnd.2 (fun p hp hqp => h p (List.mem_cons_of_mem a hp) hqp)

/-- Cancelling always leaves no current diagnostics request. -/
theorem cancelDiagnostics_current_none (st : DiagState) :
    (cancelDiagnostics st).current = none := by
  cases hc : st.current <;> simp [cancelDiagnostics, hc]

/-- Cancelling touches only `current` and `cancelled`. -/
theorem cancelDiagnostics_fields (st : DiagState) :
    (cancelDiagnostics st).pending = st.pending ∧
    (cancelDiagnostics st).nextToken = st.nextToken ∧
    (cancelDiagnostics st).nextSeq = st.nextSeq := by
  cases hc : st.current <;> simp [cancelDiagnostics, hc]

/-- The diagnostics invariant survives `cancelDiagnostics`; moreover every
in-flight geterr is cancelled afterwards. -/
theorem diagInv_cancel (st : DiagState) (h : DiagInv st) :
    DiagInv (cancelDiagnostics st) ∧
      (∀ p ∈ (cancelDiagnostics st).pending, p.2 ∈ (cancelDiagnostics st).cancelled) := by
  obtain ⟨h1, h2, h3, h4, h5⟩ := h
  cases hc : st.current with
  | none =>
    have hall : ∀ p ∈ st.pending, p.2 ∈ st.cancelled := by
      intro p hp
      rcases h1 p hp with hcl | hcur
      · exact hcl
      · rw [hc] at hcur
        exact absurd hcur (by simp)
    constructor
    · simpa [cancelDiagnostics, hc] using ⟨h1, h2, h3, h4, h5⟩
    · simpa [cancelDiagnostics, hc] using hall
  | some t =>
    have hall : ∀ p ∈ st.pending, p.2 ∈ t :: st.cancelled := by
      intro p hp
      rcases h1 p hp with hcl | hcur
      · exact List.mem_cons_of_mem t hcl
      · rw [hc] at hcur
        have : t = p.2 := Option.some.inj hcur
        exact this ▸ List.mem_cons_self t st.cancelled
    constructor
    · refine ⟨?_, by simpa [cancelDiagnostics, hc] using h2,
        by simpa [cancelDiagnostics, hc] using h3,
        by simpa [cancelDiagnostics, hc] using h4,
        by simpa [cancelDiagnostics, hc] using h5⟩
      intro p hp
      simp only [cancelDiagnostics, hc] at hp ⊢
      exact Or.inl (hall p hp)
    · intro p hp
      simp only [cancelDiagnostics, hc] at hp ⊢
      exact hall p hp

/-- The diagnostics invariant survives issuing a fresh geterr. -/
theorem diagInv_fire (st : DiagState) (h : DiagInv st) :
    DiagInv (doRequestDiagnostics st).1 := by
  obtain ⟨hc1, hcAll⟩ := diagInv_cancel st h
  obtain ⟨g1, g2, g3, g4, g5⟩ := hc1
  obtain ⟨hfp, hft, hfs⟩ := cancelDiagnostics_fields st
  simp only [doRequestDiagnostics]
  unfold DiagInv
  dsimp only
  refine ⟨?_, ?_, ?_, ?_, ?_⟩
  · intro p hp
    rw [List.mem_append] at hp
    rcases hp with hp | hp
    · exact Or.inl (hcAll p hp)
    · simp only [List.mem_singleton] at hp
      subst hp
      exact Or.inr rfl
  · rw [List.map_append, List.nodup_append]
    refine ⟨g2, by simp, ?_⟩
    intro x hx
    have : x < (cancelDiagnostics st).nextToken := by
      rw [List.mem_map] at hx
      obtain ⟨p, hp, hpx⟩ := hx
      exact hpx ▸ g3 p hp
    simp only [List.map_cons, List.map_nil]
    intro hx2
    rw [List.mem_singleton] at hx2
    omega
  · intro p hp
    rw [List.mem_append] at hp
    rcases hp with hp | hp
    · have := g3 p hp
      omega
    · simp only [List.mem_singleton] at hp
      subst hp
      omega
  · rw [List.map_append, List.nodup_append]
    refine ⟨g4, by simp, ?_⟩
    intro x hx
    have : x ≤ (cancelDiagnostics st).nextSeq := by
      rw [List.mem_map] at hx
      obtain ⟨p, hp, hpx⟩ := hx
      exact hpx ▸ g5 p hp
    simp only [List.map_cons, List.map_nil]
    intro hx2
    rw [List.mem_singleton] at hx2
    omega
  · intro p hp
    rw [List.mem_append] at hp
    rcases hp with hp | hp
    · have := g5 p hp
      omega
    · simp only [List.mem_singleton] at hp
      subst hp
      omega

/-- The diagnostics invariant survives the settlement of a geterr. -/
theorem diagInv_settled (st : DiagState) (seq : Nat) (h : DiagInv st) :
    DiagInv (geterrSettled st seq) := by
  obtain ⟨h1, h2, h3, h4, h5⟩ := h
  cases hl : lookupTok st.pending seq with
  | none => simpa [geterrSettled, hl] using ⟨h1, h2, h3, h4, h5⟩
  | some t =>
    have hst := lookupTok_mem hl
    have hsub := (erasePending_sublist st.pending seq).map Prod.snd
    have hsubf := (erasePending_sublist st.pending seq).map Prod.fst
    simp only [geterrSettled, hl]
    unfold DiagInv
    dsimp only
    refine ⟨?_, h2.sublist hsub, ?_, h4.sublist hsubf, ?_⟩
    · intro p hp
      have hpmem := mem_erasePending hp
      rcases h1 p hpmem with hcl | hcur
      · exact Or.inl hcl
      · by_cases hcu : st.current = some t
        · have hpt : p.2 = t := by
            rw [hcu] at hcur
            exact (Option.some.inj hcur).symm
          have hpe : p = (seq, t) := pending_uniq_by_token h2 hst hpmem hpt
          have hne := erasePending_key_ne h4 hp
          rw [hpe] at hne
          exact absurd rfl hne
        · rw [if_neg hcu]
          exact Or.inr hcur
    · intro p hp
      exact h3 p (mem_erasePending hp)
    · intro p hp
      exact h5 p (mem_erasePending hp)

/-- The read-interrupt helper's state change is exactly a cancellation. -/
theorem interuptDiagnostics_state (st : DiagState) :
    (interuptDiagnostics st).1 = cancelDiagnostics st := by
  cases hc : st.current <;> simp [interuptDiagnostics, cancelDiagnostics, hc]

/-- The diagnostics invariant is preserved by every event. -/
theorem diagInv_step (st : DiagState) (e : DiagEvent) (h : DiagInv st) :
    DiagInv (stepDiag st e) := by
  cases e with
  | fireDiagnostics => exact diagInv_fire st h
  | settled seq => exact diagInv_settled st seq h
  | interruptRead =>
    have := interuptDiagnostics_state st
    simp only [stepDiag, this]
    exact (diagInv_cancel st h).1

/-- The diagnostics invariant holds along arbitrary runs, in particular from
the initial state. -/
theorem diagInv_runFrom (es : List DiagEvent) :
    ∀ st : DiagState, DiagInv st → DiagInv (runDiag st es) := by
  induction es with
  | nil => exact fun st h => h
  | cons e es ih => exact fun st h => ih (stepDiag st e) (diagInv_step st e h)

/-- The diagnostics invariant holds along every run from the initial state. -/
theorem diagInv_run (es : List DiagEvent) : DiagInv (runDiag diagInit es) := by
  refine diagInv_runFrom es diagInit ?_
  refine ⟨?_, ?_, ?_, ?_, ?_⟩ <;> simp [diagInit]

/-- Under the invariant at most one in-flight geterr is uncancelled. -/
theorem uncancelled_le_one (st : DiagState) (h : DiagInv st) :
    (uncancelledPending st).length ≤ 1 := by
  obtain ⟨h1, h2, _, _, _⟩ := h
  cases hc : st.current with
  | none =>
    have hnil : uncancelledPending st = [] := by
      rw [uncancelledPending, List.filter_eq_nil_iff]
      intro p hp hq
      rw [decide_eq_true_iff] at hq
      rcases h1 p hp with hcl | hcur
      · exact hq hcl
      · rw [hc] at hcur
        exact absurd hcur (by simp)
    simp [hnil]
  | some t =>
    rw [uncancelledPending]
    refine filter_len_le_one st.pending _ t h2 ?_
    intro p hp hq
    rw [decide_eq_true_iff] at hq
    rcases h1 p hp with hcl | hcur
    · exact absurd hcl hq
    · rw [hc] at hcur
      exact (Option.some.inj hcur).symm

/-- Claim C5 (amended). Along every run of the diagnostics loop, at most one
geterr whose cancellation has not been requested is in flight at any instant
(a cancelled geterr may still be pending at the transport until tsserver
observes the cancellation-pipe file, so several geterr requests can be
simultaneously outstanding toward tsserver); issuing a new diagnostics
request first cancels the prior in-flight one (its token is cancelled and the
cancel effect precedes the new geterr); and the interrupt helper used by the
reads cancels an in-flight diagnostics request, runs the read, then
re-schedules diagnostics, while with nothing in flight it just runs the
read. -/
theorem at_most_one_uncancelled_geterr (es : List DiagEvent) :
    (uncancelledPending (runDiag diagInit es)).length ≤ 1
    ∧ (∀ st : DiagState, ∀ t : Nat, st.current = some t →
        (doRequestDiagnostics st).2 =
          [DiagEffect.cancelToken t, DiagEffect.sendGeterr (st.nextSeq + 1)]
        ∧ t ∈ (doRequestDiagnostics st).1.cancelled
        ∧ interuptDiagnostics st = (cancelDiagnostics st,
            [DiagEffect.cancelToken t, DiagEffect.runRead, DiagEffect.scheduleDiagnostics]))
    ∧ (∀ st : DiagState, st.current = none →
        interuptDiagnostics st = (st, [DiagEffect.runRead])) := by
  refine ⟨uncancelled_le_one _ (diagInv_run es), ?_, ?_⟩
  · intro st t hc
    refine ⟨by simp [doRequestDiagnostics, cancelDiagnostics, hc], ?_,
      by simp [interuptDiagnostics, hc]⟩
    simp [doRequestDiagnostics, cancelDiagnostics, hc]
  · intro st hc
    simp [interuptDiagnostics, hc]

/-- Witness for C5: the invariant bound on a concrete double-fire run, and
the cancel-first behaviour at a concrete in-flight state. -/
theorem at_most_one_uncancelled_geterr_witness :
    (uncancelledPending (runDiag diagInit
        [DiagEvent.fireDiagnostics, DiagEvent.fireDiagnostics])).length ≤ 1
    ∧ (doRequestDiagnostics
        { nextSeq := 1, nextToken := 1, current := some 0, cancelled := [], pending := [(1, 0)] }).2 =
        [DiagEffect.cancelToken 0, DiagEffect.sendGeterr 2]
    ∧ 0 ∈ (doRequestDiagnostics
        { nextSeq := 1, nextToken := 1, current := some 0, cancelled := [], pending := [(1, 0)] }).1.cancelled := by
  have h := at_most_one_uncancelled_geterr [DiagEvent.fireDiagnostics, DiagEvent.fireDiagnostics]
  have h2 := h.2.1
    { nextSeq := 1, nextToken := 1, current := some 0, cancelled := [], pending := [(1, 0)] } 0 rfl
  exact ⟨h.1, h2.1, h2.2.1⟩

/-- Counterexample for C5 as stated: after two firings of the diagnostics
request with no settlement in between, two geterr requests are pending at the
transport simultaneously — the first one was cancelled (best effort) but is
still outstanding toward tsserver, so "at most one geterr outstanding at any
instant" fails. -/
theorem two_geterr_pending_after_double_fire :
    (runDiag diagInit [DiagEvent.fireDiagnostics, DiagEvent.fireDiagnostics]).pending =
      [(1, 0), (2, 1)]
    ∧ (runDiag diagInit [DiagEvent.fireDiagnostics, DiagEvent.fireDiagnostics]).pending.length = 2
    ∧ (runDiag diagInit [DiagEvent.fireDiagnostics, DiagEvent.fireDiagnostics]).cancelled = [0] := by
  exact ⟨rfl, rfl, rfl⟩

/-- Claim C6. `applyEdit(newVersion, change)` leaves the document text equal
to the old text with the substring [offsetAt(range.start), offsetAt(range.end))
replaced by change.text when the change carries a range, and equal to
change.text when it carries none; afterwards the version is newVersion (and
uri and language id are preserved). -/
theorem applyEdit_replaces_range_and_sets_version (d : TextDoc) (v : Int) (c : ContentChange) :
    ((d.applyEdit v c).text =
      match c.range with
      | some r => d.text.take (d.offsetAt r.start) ++ c.text ++ d.text.drop (d.offsetAt r.endPos)
      | none => c.text)
    ∧ (d.applyEdit v c).version = v
    ∧ (d.applyEdit v c).uri = d.uri
    ∧ (d.applyEdit v c).languageId = d.languageId := by
  refine ⟨?_, rfl, rfl, rfl⟩
  cases hc : c.range <;> simp [TextDoc.applyEdit, hc]

/-- Value update of the document map: looking up the updated key finds the new
document whenever the key was present. -/
theorem lookupDoc_updateDoc (l : List (String × TextDoc)) (k : String) (nd : TextDoc) :
    (lookupDoc l k).isSome = true → lookupDoc (updateDoc l k nd) k = some nd := by
  induction l with
  | nil => simp [lookupDoc]
  | cons p rest ih =>
    by_cases hp : p.1 = k
    · intro _
      simp [lookupDoc, updateDoc, hp]
    · simp only [lookupDoc, updateDoc, if_neg hp]
      exact ih

/-- Updating never touches other keys' presence. -/
theorem lookupDoc_updateDoc_isSome (l : List (String × TextDoc)) (k : String) (nd : TextDoc) :
    (lookupDoc (updateDoc l k nd) k).isSome = (lookupDoc l k).isSome := by
  induction l with
  | nil => simp [lookupDoc, updateDoc]
  | cons p rest ih =>
    by_cases hp : p.1 = k
    · simp [lookupDoc, updateDoc, hp]
    · simp only [lookupDoc, updateDoc, if_neg hp]
      exact ih

/-- With pairwise-distinct keys, deleting a key removes it from the map. -/
theorem lookupDoc_deleteDoc (l : List (String × TextDoc)) (k : String)
    (hnd : (l.map Prod.fst).Nodup) : lookupDoc (deleteDoc l k) k = none := by
  induction l with
  | nil => simp [lookupDoc, deleteDoc]
  | cons p rest ih =>
    rw [List.map_cons, List.nodup_cons] at hnd
    by_cases hp : p.1 = k
    · simp only [deleteDoc, if_pos hp]
      cases hl : lookupDoc rest k with
      | none => rfl
      | some d =>
        exfalso
        have : k ∈ rest.map Prod.fst := by
          clear ih hnd
          induction rest with
          | nil => simp [lookupDoc] at hl
          | cons q rest2 ih2 =>
            by_cases hq : q.1 = k
            · simp [hq]
            · simp only [lookupDoc, if_neg hq] at hl
              simp [ih2 hl]
        exact hnd.1 (hp ▸ this)
    · simp only [deleteDoc, if_neg hp, lookupDoc, if_neg hp]
      exact ih hnd.2

/-- A `didChange` carrying one range-less (full-text) change on an open file:
tsserver gets exactly one `change` notification covering the whole old text,
the mirror document is replaced by the edited one, and diagnostics are
re-scheduled. -/
theorem didChange_fulltext (u2p : String → Option String) (st : ServerState)
    (uri file : String) (v : Int) (txt : List Char) (d : TextDoc)
    (hu : u2p uri = some file)
    (hlk : lookupDoc st.documents.docs file = some d) :
    ∃ files', didChangeTextDocument u2p st
      { textDocument := { uri := uri, version := some v },
        contentChanges := [{ text := txt }] } =
      .ok ({ documents := { files := files',
                            docs := updateDoc st.documents.docs file
                              (d.applyEdit v { text := txt }) },
             rootPath := st.rootPath },
           [Eff.tsNotify (NotifyArgs.changeN file 1 1
              ((d.positionAt d.text.length).line + 1)
              ((d.positionAt d.text.length).character + 1) txt),
            Eff.scheduleDiagnostics]) := by
  simp only [didChangeTextDocument, hu, getDocs, hlk]
  by_cases hh : st.documents.files.head? = some file
  · rw [if_pos hh]
    exact ⟨st.documents.files, rfl⟩
  · rw [if_neg hh]
    exact ⟨file :: eraseFile st.documents.files file, rfl⟩

/-- Claim C7. `open(path, item)` on a path already present returns false and
leaves both the document set and the access order unchanged; and a `didOpen`
for such an already-open path sends no tsserver `open` but instead delegates
to `didChange` with one full-text (range-less) change: the only notification
sent is a whole-document tsserver `change` carrying the new text, and the
mirror afterwards holds the new text at the item's version. -/
theorem open_existing_noop_and_didOpen_degrades_to_change
    (u2p : String → Option String) (st : ServerState) (item : TextDocumentItem)
    (file : String) (d : TextDoc)
    (hu : u2p item.uri = some file)
    (hlk : lookupDoc st.documents.docs file = some d) :
    openDocs st.documents file item = (false, st.documents)
    ∧ didOpenTextDocument u2p st { textDocument := item } =
        didChangeTextDocument u2p st
          { textDocument := { uri := item.uri, version := some item.version },
            contentChanges := [{ text := item.text }] }
    ∧ (∃ st' eL eO, didOpenTextDocument u2p st { textDocument := item } =
        .ok (st', [Eff.tsNotify (NotifyArgs.changeN file 1 1 eL eO item.text),
                   Eff.scheduleDiagnostics])
        ∧ (∀ f c k r, Eff.tsNotify (NotifyArgs.openN f c k r) ∉
            [Eff.tsNotify (NotifyArgs.changeN file 1 1 eL eO item.text),
             Eff.scheduleDiagnostics])
        ∧ (lookupDoc st'.documents.docs file).map TextDoc.text = some item.text
        ∧ (lookupDoc st'.documents.docs file).map TextDoc.version = some item.version) := by
  have hsome : (lookupDoc st.documents.docs file).isSome = true := by rw [hlk]; rfl
  have hopen : openDocs st.documents file item = (false, st.documents) := by
    simp [openDocs, hsome]
  have heq : didOpenTextDocument u2p st { textDocument := item } =
      didChangeTextDocument u2p st
        { textDocument := { uri := item.uri, version := some item.version },
          contentChanges := [{ text := item.text }] } := by
    simp only [didOpenTextDocument, hu, hopen]
    exact if_neg (fun h => Bool.noConfusion h)
  refine ⟨hopen, heq, ?_⟩
  obtain ⟨files', hch⟩ := didChange_fulltext u2p st item.uri file item.version item.text d hu hlk
  rw [heq, hch]
  refine ⟨_, _, _, rfl, by simp, ?_, ?_⟩
  · have := lookupDoc_updateDoc st.documents.docs file
      (d.applyEdit item.version { text := item.text }) hsome
    simp only [this]
    simp [TextDoc.applyEdit]
  · have := lookupDoc_updateDoc st.documents.docs file
      (d.applyEdit item.version { text := item.text }) hsome
    simp only [this]
    simp [TextDoc.applyEdit]

/-- Witness for C7: a concrete re-open of an already-open file. -/
theorem open_existing_noop_and_didOpen_degrades_to_change_witness :
    openDocs
      { files := ["/a.ts"],
        docs := [("/a.ts", { uri := "file:///a.ts", languageId := "typescript",
                             version := 1, text := str "x" })] }
      "/a.ts"
      { uri := "file:///a.ts", languageId := "typescript", version := 2, text := str "y" } =
      (false,
       { files := ["/a.ts"],
         docs := [("/a.ts", { uri := "file:///a.ts", languageId := "typescript",
                              version := 1, text := str "x" })] }) := by
  have h := open_existing_noop_and_didOpen_degrades_to_change
    (fun u => if u = "file:///a.ts" then some "/a.ts" else none)
    { documents := { files := ["/a.ts"],
                     docs := [("/a.ts", { uri := "file:///a.ts", languageId := "typescript",
                                          version := 1, text := str "x" })] },
      rootPath := "/" }
    { uri := "file:///a.ts", languageId := "typescript", version := 2, text := str "y" }
    "/a.ts"
    { uri := "file:///a.ts", languageId := "typescript", version := 1, text := str "x" }
    (by decide) (by decide)
  exact h.1

/-- Claim C8. Closing a file that is open in the mirror removes it, sends
exactly one tsserver `close` notification and publishes exactly one (hence at
least one) empty diagnostics list for the document's uri — the effect list is
precisely those two effects in order; closing a file the mirror does not hold
produces no notification and no publication. -/
theorem didClose_closes_and_publishes_empty (u2p : String → Option String)
    (st : ServerState) (uri file : String)
    (hu : u2p uri = some file)
    (hnd : (st.documents.docs.map Prod.fst).Nodup) :
    (∀ d, lookupDoc st.documents.docs file = some d →
      didCloseTextDocument u2p st { uri := uri } =
        ({ documents := { files := eraseFile st.documents.files file,
                          docs := deleteDoc st.documents.docs file },
           rootPath := st.rootPath },
         [Eff.tsNotify (NotifyArgs.closeN file), Eff.publishDiagnostics d.uri []])
      ∧ lookupDoc (deleteDoc st.documents.docs file) file = none)
    ∧ (lookupDoc st.documents.docs file = none →
        didCloseTextDocument u2p st { uri := uri } = (st, [])) := by
  constructor
  · intro d hd
    constructor
    · simp [didCloseTextDocument, hu, closeDocument, closeDocs, hd]
    · exact lookupDoc_deleteDoc st.documents.docs file hnd
  · intro h
    simp [didCloseTextDocument, hu, closeDocument, closeDocs, h]

/-- Witness for C8: closing a concretely open file notifies and publishes
empty diagnostics; closing an unknown file does nothing. -/
theorem didClose_closes_and_publishes_empty_witness :
    didCloseTextDocument (fun u => if u = "file:///a.ts" then some "/a.ts" else none)
      { documents := { files := ["/a.ts"],
                       docs := [("/a.ts", { uri := "file:///a.ts", languageId := "typescript",
                                            version := 1, text := str "x" })] },
        rootPath := "/" }
      { uri := "file:///a.ts" } =
      ({ documents := { files := [], docs := [] }, rootPath := "/" },
       [Eff.tsNotify (NotifyArgs.closeN "/a.ts"),
        Eff.publishDiagnostics "file:///a.ts" []]) := by
  have h := didClose_closes_and_publishes_empty
    (fun u => if u = "file:///a.ts" then some "/a.ts" else none)
    { documents := { files := ["/a.ts"],
                     docs := [("/a.ts", { uri := "file:///a.ts", languageId := "typescript",
                                          version := 1, text := str "x" })] },
      rootPath := "/" }
    "file:///a.ts" "/a.ts" (by decide) (by decide)
  have h2 := (h.1 { uri := "file:///a.ts", languageId := "typescript",
                    version := 1, text := str "x" } (by decide)).1
  simpa using h2

/-- Claim C10. A completion request whose uri resolves to a path that is not
in the document mirror makes the handler throw (the request fails with the
document-should-be-opened error) rather than returning an empty or null
list; only a uri that resolves to no path yields the empty completion
list. -/
theorem completion_unopened_document_throws (u2p : String → Option String)
    (st : ServerState) (params : CompletionParams)
    (result : Except String CompletionResponse) :
    (∀ file, u2p params.uri = some file → lookupDoc st.documents.docs file = none →
      completion u2p st params result =
        (st, .error ("The document should be opened for completion, file: " ++ file)))
    ∧ (u2p params.uri = none →
        completion u2p st params result =
          (st, .ok (some { isIncomplete := false, items := [] }))) := by
  constructor
  · intro file hu hlk
    simp [completion, hu, getDocs, hlk]
  · intro hu
    simp [completion, hu]

/-- Witness for C10: with no document opened, a concrete completion request
for a resolvable uri errors, and one for an unresolvable uri yields the empty
list. -/
theorem completion_unopened_document_throws_witness :
    completion (fun u => if u = "file:///a.ts" then some "/a.ts" else none)
      { documents := { files := [], docs := [] }, rootPath := "/" }
      { uri := "file:///a.ts", position := { line := 0, character := 0 } }
      (.ok { rtype := "response", body := none }) =
      ({ documents := { files := [], docs := [] }, rootPath := "/" },
       .error "The document should be opened for completion, file: /a.ts")
    ∧ completion (fun u => if u = "file:///a.ts" then some "/a.ts" else none)
        { documents := { files := [], docs := [] }, rootPath := "/" }
        { uri := "untitled:x", position := { line := 0, character := 0 } }
        (.ok { rtype := "response", body := none }) =
        ({ documents := { files := [], docs := [] }, rootPath := "/" },
         .ok (some { isIncomplete := false, items := [] })) := by
  have h := completion_unopened_document_throws
    (fun u => if u = "file:///a.ts" then some "/a.ts" else none)
    { documents := { files := [], docs := [] }, rootPath := "/" }
    { uri := "file:///a.ts", position := { line := 0, character := 0 } }
    (.ok { rtype := "response", body := none })
  have h2 := completion_unopened_document_throws
    (fun u => if u = "file:///a.ts" then some "/a.ts" else none)
    { documents := { files := [], docs := [] }, rootPath := "/" }
    { uri := "untitled:x", position := { line := 0, character := 0 } }
    (.ok { rtype := "response", body := none })
  exact ⟨h.1 "/a.ts" (by decide) (by decide), h2.2 (by decide)⟩

/-- Every recorded line-start offset is strictly beyond the scan origin and
within the scanned text. -/
theorem lineOffsetsAux_mem_bounds (t : List Char) (i : Nat) :
    ∀ x ∈ lineOffsetsAux t i, i < x ∧ x ≤ i + t.length := by
  induction t, i using lineOffsetsAux.induct with
  | case1 i => simp [lineOffsetsAux]
  | case2 rest i ih =>
    intro x hx
    rw [lineOffsetsAux] at hx
    rcases List.mem_cons.mp hx with h | h
    · subst h
      simp only [List.length_cons]
      omega
    · have := ih x h
      simp only [List.length_cons]
      omega
  | case3 rest i hne ih =>
    intro x hx
    rw [lineOffsetsAux] at hx
    · rcases List.mem_cons.mp hx with h | h
      · subst h
        simp only [List.length_cons]
        omega
      · have := ih x h
        simp only [List.length_cons]
        omega
    · exact hne
  | case4 rest i ih =>
    intro x hx
    rw [lineOffsetsAux] at hx
    rcases List.mem_cons.mp hx with h | h
    · subst h
      simp only [List.length_cons]
      omega
    · have := ih x h
      simp only [List.length_cons]
      omega
  | case5 c rest i h1 h2 h3 ih =>
    intro x hx
    rw [lineOffsetsAux] at hx
    · have := ih x hx
      simp only [List.length_cons]
      omega
    · intro rest2 hc hr
      exact h1 rest2 hc hr
    · exact h2
    · exact h3

/-- The recorded line-start offsets are strictly increasing. -/
theorem lineOffsetsAux_chain (t : List Char) (i : Nat) :
    (lineOffsetsAux t i).Chain' (· < ·) := by
  induction t, i using lineOffsetsAux.induct with
  | case1 i => simp [lineOffsetsAux]
  | case2 rest i ih =>
    rw [lineOffsetsAux]
    rw [List.chain'_cons']
    refine ⟨?_, ih⟩
    intro b hb
    exact (lineOffsetsAux_mem_bounds rest (i + 2) b (List.mem_of_mem_head? hb)).1
  | case3 rest i hne ih =>
    rw [lineOffsetsAux]
    · rw [List.chain'_cons']
      refine ⟨?_, ih⟩
      intro b hb
      exact (lineOffsetsAux_mem_bounds rest (i + 1) b (List.mem_of_mem_head? hb)).1
    · exact hne
  | case4 rest i ih =>
    rw [lineOffsetsAux]
    rw [List.chain'_cons']
    refine ⟨?_, ih⟩
    intro b hb
    exact (lineOffsetsAux_mem_bounds rest (i + 1) b (List.mem_of_mem_head? hb)).1
  | case5 c rest i h1 h2 h3 ih =>
    rw [lineOffsetsAux]
    · exact ih
    · intro rest2 hc hr
      exact h1 rest2 hc hr
    · exact h2
    · exact h3

/-- The full line-start table is strictly increasing. -/
theorem computeLineOffsets_chain (text : List Char) :
    (computeLineOffsets text).Chain' (· < ·) := by
  rw [computeLineOffsets, List.chain'_cons']
  refine ⟨?_, lineOffsetsAux_chain text 0⟩
  intro b hb
  exact (lineOffsetsAux_mem_bounds text 0 b (List.mem_of_mem_head? hb)).1

/-- Every line-start offset lies within the text. -/
theorem computeLineOffsets_le (text : List Char) :
    ∀ x ∈ computeLineOffsets text, x ≤ text.length := by
  intro x hx
  rw [computeLineOffsets, List.mem_cons] at hx
  rcases hx with h | h
  · omega
  · have := (lineOffsetsAux_mem_bounds text 0 x h).2
    omega

/-- On a list whose first `m` entries are at most `v` while the `m`-th
exceeds it, `takeWhile (· ≤ v)` is exactly `take m`. -/
theorem takeWhile_le_eq_take (v : Nat) : ∀ (xs : List Nat) (m : Nat),
    (∀ j, j < m → xs.getD j 0 ≤ v) → m < xs.length → v < xs.getD m 0 →
    xs.takeWhile (fun x => decide (x ≤ v)) = xs.take m := by
  intro xs
  induction xs with
  | nil =>
    intro m _ hm _
    simp at hm
  | cons x rest ih =>
    intro m hle hm hgt
    cases m with
    | zero =>
      simp only [List.getD_cons_zero] at hgt
      rw [List.takeWhile_cons]
      simp only [decide_eq_true_eq]
      rw [if_neg (by omega)]
      rfl
    | succ m' =>
      have hx : x ≤ v := by
        have := hle 0 (Nat.succ_pos m')
        simpa using this
      rw [List.takeWhile_cons]
      rw [if_pos (by simpa using hx)]
      rw [List.take_succ_cons]
      congr 1
      refine ih m' ?_ ?_ ?_
      · intro j hj
        have := hle (j + 1) (by omega)
        simpa using this
      · simpa using hm
      · simpa using hgt

/-- `positionAt` of the offset just before the start of line `l + 1` lands on
line `l`. -/
theorem positionAt_pred_next_line (d : TextDoc) (l : Nat)
    (h : l + 1 < (computeLineOffsets d.text).length) :
    (d.positionAt ((computeLineOffsets d.text).getD (l + 1) 0 - 1)).line = l := by
  have hchain := computeLineOffsets_chain d.text
  have hpair := (List.chain'_iff_pairwise).mp hchain
  have hget := List.pairwise_iff_getElem.mp hpair
  have hlen0 : 0 < (computeLineOffsets d.text).length := by omega
  have hposx : 0 < (computeLineOffsets d.text).getD (l + 1) 0 := by
    have h0 := hget 0 (l + 1) hlen0 h (by omega)
    have hz : (computeLineOffsets d.text).getD 0 0 = 0 := rfl
    rw [List.getD_eq_getElem _ 0 hlen0] at hz
    rw [List.getD_eq_getElem _ 0 h]
    omega
  have hbound : (computeLineOffsets d.text).getD (l + 1) 0 ≤ d.text.length := by
    rw [List.getD_eq_getElem _ 0 h]
    exact computeLineOffsets_le d.text _ (List.getElem_mem h)
  have htw : (computeLineOffsets d.text).takeWhile
      (fun x => decide (x ≤ (computeLineOffsets d.text).getD (l + 1) 0 - 1)) =
      (computeLineOffsets d.text).take (l + 1) := by
    refine takeWhile_le_eq_take _ _ (l + 1) ?_ h ?_
    · intro j hj
      have hj2 : j < (computeLineOffsets d.text).length := by omega
      have := hget j (l + 1) hj2 h hj
      rw [List.getD_eq_getElem _ 0 hj2, List.getD_eq_getElem _ 0 h]
      omega
    · omega
  simp only [TextDoc.positionAt]
  have hmin : min ((computeLineOffsets d.text).getD (l + 1) 0 - 1) d.text.length =
      (computeLineOffsets d.text).getD (l + 1) 0 - 1 := by omega
  rw [hmin, htw, List.length_take]
  omega

/-- `getLineEnd` stays on its line whenever a further line exists. -/
theorem getLineEnd_line (d : TextDoc) (l : Nat) (h : l + 1 < d.lineCount) :
    (d.getLineEnd l).line = l := by
  have hlt : ¬ (computeLineOffsets d.text).length ≤ l + 1 := by
    rw [TextDoc.lineCount] at h
    omega
  have hoff : d.getLineOffset (l + 1) = (computeLineOffsets d.text).getD (l + 1) 0 := by
    simp only [TextDoc.getLineOffset, TextDoc.getLineStart, TextDoc.offsetAt]
    rw [if_neg hlt]
    have hle : min ((computeLineOffsets d.text).getD (l + 1) 0 + 0)
        (if l + 1 + 1 < (computeLineOffsets d.text).length
         then (computeLineOffsets d.text).getD (l + 1 + 1) 0 else d.text.length) ≤
        (computeLineOffsets d.text).getD (l + 1) 0 := by
      have := Nat.min_le_left ((computeLineOffsets d.text).getD (l + 1) 0 + 0)
        (if l + 1 + 1 < (computeLineOffsets d.text).length
         then (computeLineOffsets d.text).getD (l + 1 + 1) 0 else d.text.length)
      omega
    omega
  rw [TextDoc.getLineEnd, hoff]
  exact positionAt_pred_next_line d l (by rw [TextDoc.lineCount] at h; omega)

/-- Every text edit emitted by `asCompletionItem` carries exactly the
(possibly clamped) replacement range computed from the entry's
replacementSpan. -/
theorem mkTextEdit_range (rr : Option Range) (it : Option (List Char)) (te : TextEdit)
    (h : mkTextEdit rr it = some te) : rr = some te.range := by
  cases rr with
  | none => simp [mkTextEdit] at h
  | some r =>
    simp only [mkTextEdit] at h
    split at h
    · have hinj := Option.some.inj h
      subst hinj
      rfl
    · exact absurd h (by simp)

/-- Every text edit emitted by `asCompletionItem` carries exactly the
(possibly clamped) replacement range computed from the entry's
replacementSpan. -/
theorem asCompletionItem_textEdit_range (entry : CompletionEntry) (file : String)
    (pos : Position) (doc : TextDoc) (te : TextEdit)
    (hte : (asCompletionItem entry file pos doc).textEdit = some te) :
    computeReplacementRange entry doc = some te.range := by
  simp only [asCompletionItem] at hte
  exact mkTextEdit_range _ _ te hte

/-- Claim C4 (amended). For a completion item produced from an entry with a
replacementSpan that is a valid 1-based span whose start line either equals
its end line or lies strictly before the last line of the document, the
emitted textEdit.range lies on a single line. (Containment of the cursor
position is not guaranteed: the code never checks it, and the single-line
clamp can move the range away from a cursor on a later line — see the
counterexample.) -/
theorem replacementSpan_textEdit_single_line (entry : CompletionEntry) (file : String)
    (pos : Position) (doc : TextDoc) (sp : TextSpan) (te : TextEdit)
    (hsp : entry.replacementSpan = some sp)
    (hvalid : 1 ≤ sp.start.line)
    (hline : sp.start.line = sp.endPos.line ∨ sp.start.line < doc.lineCount)
    (hte : (asCompletionItem entry file pos doc).textEdit = some te) :
    te.range.start.line = te.range.endPos.line := by
  have hrr := asCompletionItem_textEdit_range entry file pos doc te hte
  simp only [computeReplacementRange, hsp] at hrr
  split at hrr
  · next hne =>
    have hrange := Option.some.inj hrr
    rw [← hrange]
    have hcase : sp.start.line < doc.lineCount := by
      rcases hline with h | h
      · exfalso
        apply hne
        simp [asRange, h]
      · exact h
    have hl : (asRange sp).start.line + 1 < doc.lineCount := by
      simp only [asRange]
      omega
    exact (getLineEnd_line doc (asRange sp).start.line hl).symm
  · next hne =>
    have hrange := Option.some.inj hrr
    rw [← hrange]
    omega

/-- Witness for C4: a concrete same-line replacement span yields a single-line
text edit. -/
theorem replacementSpan_textEdit_single_line_witness :
    (asCompletionItem
      { name := str "ab", kind := ScriptElementKind.property, sortText := str "0",
        insertText := some (str "ab"),
        replacementSpan := some { start := { line := 1, offset := 1 },
                                  endPos := { line := 1, offset := 3 } } }
      "/a.ts" { line := 0, character := 4 }
      { uri := "file:///a.ts", languageId := "typescript", version := 1,
        text := str "abcd" }).textEdit =
      some { range := { start := { line := 0, character := 0 },
                        endPos := { line := 0, character := 2 } },
             newText := str "ab" }
    ∧ ({ range := { start := { line := 0, character := 0 },
                    endPos := { line := 0, character := 2 } },
         newText := str "ab" } : TextEdit).range.start.line =
      ({ range := { start := { line := 0, character := 0 },
                    endPos := { line := 0, character := 2 } },
         newText := str "ab" } : TextEdit).range.endPos.line := by
  refine ⟨by decide, ?_⟩
  exact replacementSpan_textEdit_single_line
    { name := str "ab", kind := ScriptElementKind.property, sortText := str "0",
      insertText := some (str "ab"),
      replacementSpan := some { start := { line := 1, offset := 1 },
                                endPos := { line := 1, offset := 3 } } }
    "/a.ts" { line := 0, character := 4 }
    { uri := "file:///a.ts", languageId := "typescript", version := 1, text := str "abcd" }
    { start := { line := 1, offset := 1 }, endPos := { line := 1, offset := 3 } }
    { range := { start := { line := 0, character := 0 },
                 endPos := { line := 0, character := 2 } },
      newText := str "ab" }
    (by decide) (by decide) (Or.inl rfl) (by decide)

/-- Counterexample for C4 as stated: a multi-line replacement span around a
cursor on the second line is clamped to the first line, and the emitted
textEdit.range (single-line as amended) does not contain the cursor
position. -/
theorem textEdit_range_misses_cursor :
    ((asCompletionItem
      { name := str "xy", kind := ScriptElementKind.property, sortText := str "0",
        insertText := some (str "xy"),
        replacementSpan := some { start := { line := 1, offset := 1 },
                                  endPos := { line := 2, offset := 2 } } }
      "/a.ts" { line := 1, character := 1 }
      { uri := "file:///a.ts", languageId := "typescript", version := 1,
        text := str "ab\ncd\n" }).textEdit.map
        (fun te => te.range)) =
      some { start := { line := 0, character := 0 },
             endPos := { line := 0, character := 2 } }
    ∧ ((asCompletionItem
      { name := str "xy", kind := ScriptElementKind.property, sortText := str "0",
        insertText := some (str "xy"),
        replacementSpan := some { start := { line := 1, offset := 1 },
                                  endPos := { line := 2, offset := 2 } } }
      "/a.ts" { line := 1, character := 1 }
      { uri := "file:///a.ts", languageId := "typescript", version := 1,
        text := str "ab\ncd\n" }).textEdit.map
        (fun te => RangeUtil.containsPos te.range { line := 1, character := 1 })) =
      some false := by
  exact ⟨by decide, by decide⟩

/-- `splitLastTwo` on a list with two known final elements. -/
theorem splitLastTwo_append (mid : List Char) (c z : Char) :
    splitLastTwo (mid ++ [c, z]) = some (mid, c, z) := by
  have h : (mid ++ [c, z]).reverse = z :: c :: mid.reverse := by
    simp
  rw [splitLastTwo, h]
  simp

/-- The code's bracket-accessor regex accepts exactly the strings
`[<quote><capture><closer>]` with a nonempty line-terminator-free capture,
where the closing class also admits `[`; the capture is returned. -/
theorem bracketCapture_of_decomp (q c : Char) (mid : List Char)
    (hq : q = '\'' ∨ q = '"') (hc : c = '[' ∨ c = '\'' ∨ c = '"')
    (hmid : mid ≠ []) (hall : mid.all isRegexDotChar = true) :
    bracketCapture ('[' :: q :: (mid ++ [c, ']'])) = some mid := by
  have hq2 : (decide (q = '\'') || decide (q = '"')) = true := by
    rcases hq with h | h <;> simp [h]
  have hc2 : (decide (c = '[') || decide (c = '\'') || decide (c = '"')) = true := by
    rcases hc with h | h | h <;> simp [h]
  have hmid2 : mid.isEmpty = false := by
    cases mid
    · exact absurd rfl hmid
    · rfl
  simp only [bracketCapture, hq2, if_true, splitLastTwo_append]
  simp [hc2, hmid2, hall]

/-- Claim C9 (amended). For a completion entry whose name does not start with
`#`: a `this.`-prefixed insert text yields no filter text; an insert text of
the shape `[<quote><capture><closer>]` — the code's regex
`^\[['"](.+)[['"]\]$`, whose closing character class admits `[` as well as
the two quotes — yields `.` followed by the capture; an insert text starting
with `[` that the regex does not match passes through unchanged; any other
insert text passes through (none when absent). -/
theorem getFilterText_non_private_rules (line : List Char) (insertText : Option (List Char))
    (entry : CompletionEntry) (position : Position) (document : TextDoc)
    (hname : (str "#").isPrefixOf entry.name = false) :
    (∀ s, insertText = some s → (str "this.").isPrefixOf s = true →
      getFilterText line insertText entry position document = none)
    ∧ (∀ q c mid, insertText = some ('[' :: q :: (mid ++ [c, ']'])) →
        (q = '\'' ∨ q = '"') → (c = '[' ∨ c = '\'' ∨ c = '"') →
        mid ≠ [] → mid.all isRegexDotChar = true →
        getFilterText line insertText entry position document = some ('.' :: mid))
    ∧ (∀ s, insertText = some s → (str "[").isPrefixOf s = true →
        bracketCapture s = none →
        getFilterText line insertText entry position document = some s)
    ∧ (∀ s, insertText = some s → (str "this.").isPrefixOf s = false →
        (str "[").isPrefixOf s = false →
        getFilterText line insertText entry position document = some s)
    ∧ (insertText = none →
        getFilterText line insertText entry position document = none) := by
  refine ⟨?_, ?_, ?_, ?_, ?_⟩
  · intro s hs hthis
    subst hs
    simp [getFilterText, hname, optStarts, hthis]
  · intro q c mid hs hq hc hmid hall
    subst hs
    have hthis : (str "this.").isPrefixOf ('[' :: q :: (mid ++ [c, ']'])) = false := rfl
    have hbr : (str "[").isPrefixOf ('[' :: q :: (mid ++ [c, ']'])) = true := rfl
    simp only [getFilterText, hname, Bool.false_eq_true, if_false, optStarts, hthis, hbr,
      if_true, Option.map_some']
    rw [bracketReplace, bracketCapture_of_decomp q c mid hq hc hmid hall]
  · intro s hs hbr hcap
    subst hs
    have hthis : (str "this.").isPrefixOf s = false := by
      cases s with
      | nil => simp [List.isPrefixOf] at hbr
      | cons a s' =>
        have ha : a = '[' := by
          have := hbr
          simp [str, List.isPrefixOf] at this
          exact this.symm
        subst ha
        rfl
    simp only [getFilterText, hname, Bool.false_eq_true, if_false, optStarts, hthis, hbr,
      if_true, Option.map_some']
    rw [bracketReplace, hcap]
  · intro s hs hthis hbr
    subst hs
    simp [getFilterText, hname, optStarts, hthis, hbr]
  · intro hs
    subst hs
    simp [getFilterText, hname, optStarts]

/-- Witness for C9: the bracket-accessor rewrite on a concrete quoted insert
text, through the amended theorem's regex clause. -/
theorem getFilterText_non_private_rules_witness :
    getFilterText [] (some (str "['ab c']"))
      { name := str "ab c", kind := ScriptElementKind.property, sortText := str "0" }
      { line := 0, character := 0 }
      { uri := "file:///a.ts", languageId := "typescript", version := 1, text := str "" } =
      some (str ".ab c") := by
  have h := getFilterText_non_private_rules [] (some (str "['ab c']"))
    { name := str "ab c", kind := ScriptElementKind.property, sortText := str "0" }
    { line := 0, character := 0 }
    { uri := "file:///a.ts", languageId := "typescript", version := 1, text := str "" }
    (by decide)
  have h2 := h.2.1 '\'' '\'' (str "ab c") (by decide) (Or.inl rfl) (Or.inr (Or.inl rfl))
    (by decide) (by decide)
  simpa using h2

/-- Counterexample for C9 as stated: on the insert text `['x[]` the code's
regex (closing class `[['"]`) matches with capture `x`, producing filter text
`.x`, while the claim's regex `^\[['"](.+)['"]\]$` does not match, so the
claim predicts the unchanged insert text `['x[]`. -/
theorem bracket_regex_extra_lbracket :
    getFilterText [] (some (str "['x[]"))
      { name := str "x", kind := ScriptElementKind.property, sortText := str "0" }
      { line := 0, character := 0 }
      { uri := "file:///a.ts", languageId := "typescript", version := 1, text := str "" } =
      some (str ".x")
    ∧ specFilterTextC9 (some (str "['x[]")) = some (str "['x[]")
    ∧ str ".x" ≠ str "['x[]" := by
  exact ⟨by decide, by decide, by decide⟩

/-- Claim C2 (code bug). In a member completion with a dot-accessor context —
document text `xs.` with the cursor right after the `.`, tsserver reporting
`isMemberCompletion: true`, so the handler computes the context (the regex
matches the line prefix with length 1 and the context text is `.`) — the
dispatcher passes the context as the fifth argument of `asCompletionItem`,
which only has four parameters, so the JS runtime drops it: the produced
item's filter text is the plain insert text `msg`, not the dot-accessor text
prepended (`.msg`) as the claim (and the dead `MyCompletionItem` code path)
prescribe, and no range union is performed. -/
theorem asCompletionItem_ignores_dotAccessorContext :
    (match (completion
        (fun u => if u = "file:///a.ts" then some "/a.ts" else none)
        { documents := { files := ["/a.ts"],
                         docs := [("/a.ts", { uri := "file:///a.ts", languageId := "typescript",
                                              version := 1, text := str "xs.\n" })] },
          rootPath := "/" }
        { uri := "file:///a.ts", position := { line := 0, character := 3 } }
        (.ok { rtype := "response",
               body := some { isMemberCompletion := true, isNewIdentifierLocation := false,
                              entries := [{ name := str "message",
                                            kind := ScriptElementKind.property,
                                            sortText := str "0",
                                            insertText := some (str "msg") }] } })).2 with
     | .ok (some l) => l.items.map (fun i => i.filterText)
     | _ => []) = [some (str "msg")]
    ∧ dotMatchLen ((str "xs.\n").take 3) = some 1
    ∧ TextDoc.getText
        { uri := "file:///a.ts", languageId := "typescript", version := 1, text := str "xs.\n" }
        { start := { line := 0, character := 2 }, endPos := { line := 0, character := 3 } } =
        str "."
    ∧ some (str "msg") ≠ some (str "." ++ str "msg") := by
  refine ⟨by decide, by decide, by decide, by decide⟩
